import Mathlib

/-!
Shallow embedding of the lexical scanner in `lox.py` (classes `ErrorHandler`,
`TokenType`, `Token`, `Scanner`).  The source text is a `List Char`; the
scanner's mutable state (`_tokens`, `_start`, `_current`, `_line`, together
with the diagnostics accumulated by the `ErrorHandler` collaborator) is an
explicit `ScanState` record threaded through the helpers.  The main scan loop
and the inner character-consuming loops are written with an explicit fuel
argument; a fuel of `source.length` is sufficient because every loop
iteration advances the cursor by at least one position (proved below).
-/

/-- The token categories of `TokenType` in `lox.py` (lines 22-69). -/
inductive TokenType where
  | LEFT_PAREN | RIGHT_PAREN | LEFT_BRACE | RIGHT_BRACE
  | COMMA | DOT | MINUS | PLUS | SEMICOLON | SLASH | STAR
  | BANG | BANG_EQUAL | EQUAL | EQUAL_EQUAL
  | GREATER | GREATER_EQUAL | LESS | LESS_EQUAL
  | IDENTIFIER | STRING | NUMBER
  | AND | CLASS | ELSE | FALSE | FUN | FOR | IF | NIL | OR
  | PRINT | RETURN | SUPER | THIS | TRUE | VAR | WHILE
  | EOF
deriving DecidableEq, Repr

/-- The `literal` attribute of a `Token`: Python `None`, a string value, or a
float value.  `float(text)` for a number lexeme is modelled as the exact
decimal value the text denotes, represented as a rational (the binary64
rounding of that value is below the granularity of every statement here). -/
inductive Literal where
  | null
  | str (value : List Char)
  | num (value : ℚ)
deriving DecidableEq, Repr

/-- The frozen dataclass `Token` in `lox.py` (lines 72-77). -/
structure Token where
  type : TokenType
  lexeme : List Char
  literal : Literal
  line : Nat
deriving DecidableEq, Repr

/-- One diagnostic recorded through `ErrorHandler.error` (line and message;
the optional `where` qualifier is always defaulted by the scanner). -/
structure Diag where
  line : Nat
  message : String
deriving DecidableEq, Repr

/-- The scanner's mutable state: accumulated tokens, lexeme start cursor,
current cursor, 1-based line counter, and the diagnostics recorded so far in
the `ErrorHandler` collaborator. -/
structure ScanState where
  tokens : List Token
  start : Nat
  current : Nat
  line : Nat
  errors : List Diag
deriving DecidableEq, Repr

/-- `_is_ascii_digit` (lox.py line 81): membership in `string.digits`. -/
def isAsciiDigit (c : Char) : Bool :=
  '0' ≤ c && c ≤ '9'

/-- `_is_ascii_alpha` (lox.py line 87): membership in
`string.ascii_letters + '_'`. -/
def isAsciiAlpha (c : Char) : Bool :=
  ('a' ≤ c && c ≤ 'z') || ('A' ≤ c && c ≤ 'Z') || c == '_'

/-- `_is_ascii_alphanum` (lox.py line 93). -/
def isAsciiAlphanum (c : Char) : Bool :=
  isAsciiAlpha c || isAsciiDigit c

/-- `Scanner._peek` / `Scanner._peek_next` (lox.py lines 167-175): the
character at index `i`, or `'\0'` past the end of the buffer. -/
def peekAt (src : List Char) (i : Nat) : Char :=
  src.getD i '\x00'

/-- Python slice `src[a:b]` on the source buffer (`0 ≤ a ≤ b` in all uses). -/
def sliceSrc (src : List Char) (a b : Nat) : List Char :=
  (src.drop a).take (b - a)

/-- `Scanner._match` (lox.py lines 160-165): true iff the cursor is in
bounds and the character there is `exp` (a successful match also advances
the cursor; callers below add 1 to `current` on success). -/
def matchChar (src : List Char) (current : Nat) (exp : Char) : Bool :=
  decide (current < src.length) && (peekAt src current == exp)

/-- `Scanner.SINGLE_CHAR_TOKENS` (lox.py lines 99-110). -/
def singleCharToken : Char → Option TokenType
  | '(' => some TokenType.LEFT_PAREN
  | ')' => some TokenType.RIGHT_PAREN
  | '\x7b' => some TokenType.LEFT_BRACE
  | '\x7d' => some TokenType.RIGHT_BRACE
  | ',' => some TokenType.COMMA
  | '.' => some TokenType.DOT
  | '-' => some TokenType.MINUS
  | '+' => some TokenType.PLUS
  | ';' => some TokenType.SEMICOLON
  | '*' => some TokenType.STAR
  | _ => none

/-- `Scanner.OpTokenPair` (lox.py lines 112-114). -/
structure OpTokenPair where
  withEqual : TokenType
  single : TokenType
deriving DecidableEq, Repr

/-- `Scanner.OP_TOKENS` (lox.py lines 116-121).  Note: the source maps `'>'`
to `BANG_EQUAL` / `BANG` (line 120), not to `GREATER_EQUAL` / `GREATER`;
this table transcribes the source as written. -/
def opTokens : Char → Option OpTokenPair
  | '!' => some ⟨TokenType.BANG_EQUAL, TokenType.BANG⟩
  | '=' => some ⟨TokenType.EQUAL_EQUAL, TokenType.EQUAL⟩
  | '<' => some ⟨TokenType.LESS_EQUAL, TokenType.LESS⟩
  | '>' => some ⟨TokenType.BANG_EQUAL, TokenType.BANG⟩
  | _ => none

/-- `Scanner.KEYWORDS` (lox.py lines 125-142). -/
def keywordType (text : List Char) : Option TokenType :=
  match String.mk text with
  | "and" => some TokenType.AND
  | "class" => some TokenType.CLASS
  | "else" => some TokenType.ELSE
  | "false" => some TokenType.FALSE
  | "fun" => some TokenType.FUN
  | "for" => some TokenType.FOR
  | "if" => some TokenType.IF
  | "nil" => some TokenType.NIL
  | "or" => some TokenType.OR
  | "print" => some TokenType.PRINT
  | "return" => some TokenType.RETURN
  | "super" => some TokenType.SUPER
  | "this" => some TokenType.THIS
  | "true" => some TokenType.TRUE
  | "var" => some TokenType.VAR
  | "while" => some TokenType.WHILE
  | _ => none

/-- `Scanner._add_token` (lox.py lines 177-179): append a token whose lexeme
is the slice from the lexeme start to the current cursor. -/
def addTok (src : List Char) (s : ScanState) (tt : TokenType) (lit : Literal) : ScanState :=
  { s with tokens := s.tokens ++ [⟨tt, sliceSrc src s.start s.current, lit, s.line⟩] }

/-- Accumulator-style decimal digit-list valuation. -/
def digitsToNat (acc : Nat) : List Char → Nat
  | [] => acc
  | c :: cs => digitsToNat (acc * 10 + (c.toNat - 48)) cs

/-- Models Python `float(text)` on a number lexeme (maximal digit run with an
optional `.` and fractional digit run): the exact decimal value of the text,
as a rational. -/
def decimalValue (text : List Char) : ℚ :=
  (digitsToNat 0 (text.takeWhile (fun c => c ≠ '.')) : ℚ) +
    (digitsToNat 0 ((text.dropWhile (fun c => c ≠ '.')).drop 1) : ℚ) /
      (10 : ℚ) ^ ((text.dropWhile (fun c => c ≠ '.')).drop 1).length

/-- The `while` loop of `Scanner._scan_string` (lox.py lines 182-185):
advance until a closing quote or the end of the buffer, bumping the line
counter at each newline.  Returns the final cursor and line.  The fuel is
instantiated with `src.length - current`, which is sufficient. -/
def stringLoopF : Nat → List Char → Nat → Nat → Nat × Nat
  | 0, _, current, line => (current, line)
  | gas + 1, src, current, line =>
      if peekAt src current ≠ '"' ∧ current < src.length then
        stringLoopF gas src (current + 1)
          (if peekAt src current = '\n' then line + 1 else line)
      else (current, line)

/-- The digit-consuming `while` loops of `Scanner._scan_number`
(lox.py lines 198-199 and 205-206). -/
def digitsLoopF : Nat → List Char → Nat → Nat
  | 0, _, current => current
  | gas + 1, src, current =>
      if isAsciiDigit (peekAt src current) then digitsLoopF gas src (current + 1)
      else current

/-- The cursor position after the maximal digit run starting at `current`. -/
def digitsEnd (src : List Char) (current : Nat) : Nat :=
  digitsLoopF (src.length - current) src current

/-- The `while` loop of `Scanner._scan_identifier` (lox.py lines 211-212). -/
def identLoopF : Nat → List Char → Nat → Nat
  | 0, _, current => current
  | gas + 1, src, current =>
      if isAsciiAlphanum (peekAt src current) then identLoopF gas src (current + 1)
      else current

/-- The cursor position after the maximal identifier run starting at
`current`. -/
def identEnd (src : List Char) (current : Nat) : Nat :=
  identLoopF (src.length - current) src current

/-- The comment-skipping `while` loop in `Scanner._scan_token`
(lox.py lines 231-232): advance until a newline or the end of the buffer. -/
def commentLoopF : Nat → List Char → Nat → Nat
  | 0, _, current => current
  | gas + 1, src, current =>
      if peekAt src current ≠ '\n' ∧ current < src.length then
        commentLoopF gas src (current + 1)
      else current

/-- The cursor position after skipping a line comment starting at
`current`. -/
def commentEnd (src : List Char) (current : Nat) : Nat :=
  commentLoopF (src.length - current) src current

/-- `Scanner._scan_string` (lox.py lines 181-195), entered with the cursor
just past the opening quote: consume up to the closing quote; at the end of
the buffer record an "Unterminated string." diagnostic and emit no token,
otherwise consume the closing quote and emit a STRING token whose literal is
the text strictly between the quotes. -/
def scanString (src : List Char) (s : ScanState) : ScanState :=
  let r := stringLoopF (src.length - s.current) src s.current s.line
  if src.length ≤ r.1 then
    { s with current := r.1, line := r.2,
             errors := s.errors ++ [⟨r.2, "Unterminated string."⟩] }
  else
    { s with current := r.1 + 1, line := r.2,
             tokens := s.tokens ++
               [⟨TokenType.STRING, sliceSrc src s.start (r.1 + 1),
                 Literal.str (sliceSrc src (s.start + 1) r.1), r.2⟩] }

/-- `Scanner._scan_number` (lox.py lines 197-208), entered with the cursor
just past the first digit: consume the maximal digit run, then a `.` and a
further maximal digit run only when the `.` is immediately followed by a
digit, and emit a NUMBER token whose literal is the value of the matched
text. -/
def scanNumber (src : List Char) (s : ScanState) : ScanState :=
  let c1 := digitsEnd src s.current
  let c2 := if peekAt src c1 = '.' ∧ isAsciiDigit (peekAt src (c1 + 1)) then
              digitsEnd src (c1 + 1)
            else c1
  { s with current := c2,
           tokens := s.tokens ++
             [⟨TokenType.NUMBER, sliceSrc src s.start c2,
               Literal.num (decimalValue (sliceSrc src s.start c2)), s.line⟩] }

/-- `Scanner._scan_identifier` (lox.py lines 210-218), entered with the
cursor just past the first letter or underscore: consume the maximal
alphanumeric run and emit a keyword token or an IDENTIFIER token. -/
def scanIdentifier (src : List Char) (s : ScanState) : ScanState :=
  let c1 := identEnd src s.current
  { s with current := c1,
           tokens := s.tokens ++
             [⟨(keywordType (sliceSrc src s.start c1)).getD TokenType.IDENTIFIER,
               sliceSrc src s.start c1, Literal.null, s.line⟩] }

/-- `Scanner._scan_token` (lox.py lines 220-248): consume the lead character
at `s.current` and dispatch on it.  The tests below mirror the
`if`/`elif` chain of the source in order. -/
def scanToken (src : List Char) (s : ScanState) : ScanState :=
  match singleCharToken (peekAt src s.current) with
  | some tt => addTok src { s with current := s.current + 1 } tt Literal.null
  | none =>
    match opTokens (peekAt src s.current) with
    | some op =>
        if matchChar src (s.current + 1) '=' then
          addTok src { s with current := s.current + 2 } op.withEqual Literal.null
        else
          addTok src { s with current := s.current + 1 } op.single Literal.null
    | none =>
        if peekAt src s.current = '/' then
          if matchChar src (s.current + 1) '/' then
            { s with current := commentEnd src (s.current + 2) }
          else
            addTok src { s with current := s.current + 1 } TokenType.SLASH Literal.null
        else if peekAt src s.current = ' ' ∨ peekAt src s.current = '\r' ∨
                peekAt src s.current = '\t' then
          { s with current := s.current + 1 }
        else if peekAt src s.current = '\n' then
          { s with current := s.current + 1, line := s.line + 1 }
        else if peekAt src s.current = '"' then
          scanString src { s with current := s.current + 1 }
        else if isAsciiDigit (peekAt src s.current) then
          scanNumber src { s with current := s.current + 1 }
        else if isAsciiAlpha (peekAt src s.current) then
          scanIdentifier src { s with current := s.current + 1 }
        else
          { s with current := s.current + 1,
                   errors := s.errors ++ [⟨s.line, "Unexpected character"⟩] }

/-- The `while` loop of `Scanner.scan_tokens` (lox.py lines 251-253): set the
lexeme start to the cursor and scan one token, until the cursor reaches the
end of the buffer.  A fuel of `src.length` is sufficient because `scanToken`
advances the cursor by at least one position. -/
def scanLoopF : Nat → List Char → ScanState → ScanState
  | 0, _, s => s
  | gas + 1, src, s =>
      if s.current < src.length then
        scanLoopF gas src (scanToken src { s with start := s.current })
      else s

/-- `Scanner(source, error_handler)` where the error handler has already
recorded the diagnostics `errs` (lox.py lines 144-150). -/
def initState (errs : List Diag) : ScanState :=
  ⟨[], 0, 0, 1, errs⟩

/-- `Scanner.scan_tokens` (lox.py lines 250-256) on a scanner built with an
error handler that has already recorded the diagnostics `errs`: run the scan
loop over the whole buffer, then append the end-of-input token. -/
def scanTokensWith (src : List Char) (errs : List Diag) : ScanState :=
  let s := scanLoopF src.length src (initState errs)
  { s with tokens := s.tokens ++ [⟨TokenType.EOF, [], Literal.null, s.line⟩] }

/-- `Scanner.scan_tokens` on a fresh scanner and a fresh error handler, as
built by `_run` (lox.py lines 259-262). -/
def scanTokens (src : List Char) : ScanState :=
  scanTokensWith src []

/-- The scan loop with the fuel it actually needs from a given state
(`src.length - s.current`); with this fuel the loop provably runs the cursor
to the end of the buffer. -/
def scanRun (src : List Char) (s : ScanState) : ScanState :=
  scanLoopF (src.length - s.current) src s

/-- The trace of lexeme-start positions the scan loop visits (each loop
entry records the cursor, and the final cursor position is recorded last).
These are exactly the positions lying between two consecutive lexemes of the
scan — the token boundaries. -/
def boundariesF : Nat → List Char → ScanState → List Nat
  | 0, _, s => [s.current]
  | gas + 1, src, s =>
      if s.current < src.length then
        s.current :: boundariesF gas src (scanToken src { s with start := s.current })
      else [s.current]

/-- The boundary trace from a given state, with sufficient fuel. -/
def bndRun (src : List Char) (s : ScanState) : List Nat :=
  boundariesF (src.length - s.current) src s

/-- The token-boundary positions of a full scan of `src`. -/
def scanBoundaries (src : List Char) : List Nat :=
  boundariesF src.length src (initState [])

example : (scanTokens ['!', '=']).tokens =
    [⟨TokenType.BANG_EQUAL, ['!', '='], Literal.null, 1⟩,
     ⟨TokenType.EOF, [], Literal.null, 1⟩] := by decide

example : (scanTokens ['4', '5', '.', '6', '7']).tokens =
    [⟨TokenType.NUMBER, ['4', '5', '.', '6', '7'],
      Literal.num (decimalValue ['4', '5', '.', '6', '7']), 1⟩,
     ⟨TokenType.EOF, [], Literal.null, 1⟩] := by rfl

example : scanTokens ['"', 'a', 'b', 'c'] =
    ⟨[⟨TokenType.EOF, [], Literal.null, 1⟩], 0, 4, 1,
     [⟨1, "Unterminated string."⟩]⟩ := by decide

example : (scanTokens ['"', 'a', '\n', 'b', '"']).tokens =
    [⟨TokenType.STRING, ['"', 'a', '\n', 'b', '"'], Literal.str ['a', '\n', 'b'], 2⟩,
     ⟨TokenType.EOF, [], Literal.null, 2⟩] := by decide

example : (scanTokens ['>', '=']).tokens =
    [⟨TokenType.BANG_EQUAL, ['>', '='], Literal.null, 1⟩,
     ⟨TokenType.EOF, [], Literal.null, 1⟩] := by decide

example : (scanTokens ['f', 'o', 'r', 'e', 's', 't']).tokens =
    [⟨TokenType.IDENTIFIER, ['f', 'o', 'r', 'e', 's', 't'], Literal.null, 1⟩,
     ⟨TokenType.EOF, [], Literal.null, 1⟩] := by decide

/-! ### Basic facts about the character-consuming loops -/

theorem digitsLoopF_le (gas : Nat) (src : List Char) :
    ∀ current, current ≤ digitsLoopF gas src current := by
  induction gas with
  | zero => intro c; simp [digitsLoopF]
  | succ g ih =>
      intro c
      rw [digitsLoopF]
      split
      · exact le_trans (Nat.le_succ c) (ih (c + 1))
      · exact le_refl c

theorem identLoopF_le (gas : Nat) (src : List Char) :
    ∀ current, current ≤ identLoopF gas src current := by
  induction gas with
  | zero => intro c; simp [identLoopF]
  | succ g ih =>
      intro c
      rw [identLoopF]
      split
      · exact le_trans (Nat.le_succ c) (ih (c + 1))
      · exact le_refl c

theorem commentLoopF_le (gas : Nat) (src : List Char) :
    ∀ current, current ≤ commentLoopF gas src current := by
  induction gas with
  | zero => intro c; simp [commentLoopF]
  | succ g ih =>
      intro c
      rw [commentLoopF]
      split
      · exact le_trans (Nat.le_succ c) (ih (c + 1))
      · exact le_refl c

theorem stringLoopF_le (gas : Nat) (src : List Char) :
    ∀ current line, current ≤ (stringLoopF gas src current line).1 := by
  induction gas with
  | zero => intro c l; simp [stringLoopF]
  | succ g ih =>
      intro c l
      rw [stringLoopF]
      split
      · exact le_trans (Nat.le_succ c) (ih (c + 1) _)
      · exact le_refl c

theorem stringLoopF_line_le (gas : Nat) (src : List Char) :
    ∀ current line, line ≤ (stringLoopF gas src current line).2 := by
  induction gas with
  | zero => intro c l; simp [stringLoopF]
  | succ g ih =>
      intro c l
      rw [stringLoopF]
      split
      · refine le_trans ?_ (ih (c + 1) _)
        split <;> omega
      · exact le_refl l

theorem digitsEnd_le (src : List Char) (current : Nat) : current ≤ digitsEnd src current :=
  digitsLoopF_le _ _ _

theorem identEnd_le (src : List Char) (current : Nat) : current ≤ identEnd src current :=
  identLoopF_le _ _ _

theorem commentEnd_le (src : List Char) (current : Nat) : current ≤ commentEnd src current :=
  commentLoopF_le _ _ _

/-! ### Basic facts about the lexeme scanners -/
/-! ### Basic facts about the lexeme scanners -/

theorem scanString_current_le (src : List Char) (s : ScanState) :
    s.current ≤ (scanString src s).current := by
  simp only [scanString]
  split
  · exact stringLoopF_le _ _ _ _
  · exact le_trans (stringLoopF_le _ _ _ _) (Nat.le_succ _)

theorem scanString_start (src : List Char) (s : ScanState) :
    (scanString src s).start = s.start := by
  simp only [scanString]
  split <;> rfl

theorem scanString_line_le (src : List Char) (s : ScanState) :
    s.line ≤ (scanString src s).line := by
  simp only [scanString]
  split <;> exact stringLoopF_line_le _ _ _ _

theorem scanNumber_current_le (src : List Char) (s : ScanState) :
    s.current ≤ (scanNumber src s).current := by
  simp only [scanNumber]
  split
  · exact le_trans (digitsEnd_le src s.current)
      (le_trans (Nat.le_succ _) (digitsEnd_le src _))
  · exact digitsEnd_le src s.current

theorem scanNumber_start (src : List Char) (s : ScanState) :
    (scanNumber src s).start = s.start := rfl

theorem scanNumber_line (src : List Char) (s : ScanState) :
    (scanNumber src s).line = s.line := rfl

theorem scanIdentifier_current_le (src : List Char) (s : ScanState) :
    s.current ≤ (scanIdentifier src s).current :=
  identEnd_le src s.current

theorem scanIdentifier_start (src : List Char) (s : ScanState) :
    (scanIdentifier src s).start = s.start := rfl

theorem scanIdentifier_line (src : List Char) (s : ScanState) :
    (scanIdentifier src s).line = s.line := rfl

/-- `scanToken` always advances the cursor by at least one position. -/
theorem scanToken_current_lt (src : List Char) (s : ScanState) :
    s.current < (scanToken src s).current := by
  unfold scanToken
  split
  · simp [addTok]
  · split
    · split <;> simp [addTok]
    · split_ifs with h3 h4 h5 h6 h7 h8 h9
      · have := commentEnd_le src (s.current + 2)
        simp only [ScanState.current]
        omega
      · simp [addTok]
      · simp
      · simp
      · have := scanString_current_le src { s with current := s.current + 1 }
        simp only [ScanState.current] at this ⊢
        omega
      · have := scanNumber_current_le src { s with current := s.current + 1 }
        simp only [ScanState.current] at this ⊢
        omega
      · have := scanIdentifier_current_le src { s with current := s.current + 1 }
        simp only [ScanState.current] at this ⊢
        omega
      · simp

/-- `scanToken` never changes the lexeme-start cursor. -/
theorem scanToken_start (src : List Char) (s : ScanState) :
    (scanToken src s).start = s.start := by
  unfold scanToken
  split
  · rfl
  · split
    · split <;> rfl
    · split_ifs with h3 h4 h5 h6 h7 h8 h9
      · rfl
      · rfl
      · rfl
      · rfl
      · exact scanString_start src { s with current := s.current + 1 }
      · rfl
      · rfl
      · rfl

/-- `scanToken` never decreases the line counter. -/
theorem scanToken_line_le (src : List Char) (s : ScanState) :
    s.line ≤ (scanToken src s).line := by
  unfold scanToken
  split
  · exact le_refl _
  · split
    · split <;> exact le_refl _
    · split_ifs with h3 h4 h5 h6 h7 h8 h9
      · exact le_refl _
      · exact le_refl _
      · exact le_refl _
      · simp
      · exact scanString_line_le src { s with current := s.current + 1 }
      · exact le_refl _
      · exact le_refl _
      · exact le_refl _

/-! ### The dispatch tables never produce an end-of-input token -/

theorem singleCharToken_ne_eof (c : Char) (tt : TokenType)
    (h : singleCharToken c = some tt) : tt ≠ TokenType.EOF := by
  unfold singleCharToken at h
  split at h <;> first
  | (injection h with h2; subst h2; decide)
  | injection h

theorem opTokens_ne_eof (c : Char) (op : OpTokenPair) (h : opTokens c = some op) :
    op.withEqual ≠ TokenType.EOF ∧ op.single ≠ TokenType.EOF := by
  unfold opTokens at h
  split at h <;> first
  | (injection h with h2; subst h2; decide)
  | injection h

theorem keywordType_ne_eof (text : List Char) (tt : TokenType)
    (h : keywordType text = some tt) : tt ≠ TokenType.EOF := by
  unfold keywordType at h
  split at h <;> first
  | (injection h with h2; subst h2; decide)
  | injection h

/-! ### Frame lemmas: the scanner only appends to the token list and the
diagnostic list, and the appended part does not depend on their prior
contents -/

theorem scanString_frame (src : List Char) (t : List Token) (st c l : Nat) (e : List Diag) :
    scanString src ⟨t, st, c, l, e⟩ =
      ⟨t ++ (scanString src ⟨[], st, c, l, []⟩).tokens,
       (scanString src ⟨[], st, c, l, []⟩).start,
       (scanString src ⟨[], st, c, l, []⟩).current,
       (scanString src ⟨[], st, c, l, []⟩).line,
       e ++ (scanString src ⟨[], st, c, l, []⟩).errors⟩ := by
  simp only [scanString]
  split <;> simp

theorem scanNumber_frame (src : List Char) (t : List Token) (st c l : Nat) (e : List Diag) :
    scanNumber src ⟨t, st, c, l, e⟩ =
      ⟨t ++ (scanNumber src ⟨[], st, c, l, []⟩).tokens,
       (scanNumber src ⟨[], st, c, l, []⟩).start,
       (scanNumber src ⟨[], st, c, l, []⟩).current,
       (scanNumber src ⟨[], st, c, l, []⟩).line,
       e ++ (scanNumber src ⟨[], st, c, l, []⟩).errors⟩ := by
  simp only [scanNumber]
  simp

theorem scanIdentifier_frame (src : List Char) (t : List Token) (st c l : Nat) (e : List Diag) :
    scanIdentifier src ⟨t, st, c, l, e⟩ =
      ⟨t ++ (scanIdentifier src ⟨[], st, c, l, []⟩).tokens,
       (scanIdentifier src ⟨[], st, c, l, []⟩).start,
       (scanIdentifier src ⟨[], st, c, l, []⟩).current,
       (scanIdentifier src ⟨[], st, c, l, []⟩).line,
       e ++ (scanIdentifier src ⟨[], st, c, l, []⟩).errors⟩ := by
  simp only [scanIdentifier]
  simp

theorem scanToken_frame (src : List Char) (t : List Token) (st c l : Nat) (e : List Diag) :
    scanToken src ⟨t, st, c, l, e⟩ =
      ⟨t ++ (scanToken src ⟨[], st, c, l, []⟩).tokens,
       (scanToken src ⟨[], st, c, l, []⟩).start,
       (scanToken src ⟨[], st, c, l, []⟩).current,
       (scanToken src ⟨[], st, c, l, []⟩).line,
       e ++ (scanToken src ⟨[], st, c, l, []⟩).errors⟩ := by
  unfold scanToken
  dsimp only
  split
  · simp [addTok]
  · split
    · split <;> simp [addTok]
    · split_ifs with h3 h4 h5 h6 h7 h8 h9
      · simp
      · simp [addTok]
      · simp
      · simp
      · exact scanString_frame src t st (c + 1) l e
      · exact scanNumber_frame src t st (c + 1) l e
      · exact scanIdentifier_frame src t st (c + 1) l e
      · simp

/-! ### What one dispatch step appends to the token list -/

theorem scanString_delta (src : List Char) (s : ScanState) :
    (scanString src s).tokens = s.tokens ∨
      ∃ tok : Token, (scanString src s).tokens = s.tokens ++ [tok] ∧
        tok.type = TokenType.STRING ∧ tok.line = (scanString src s).line ∧
        s.line ≤ tok.line := by
  simp only [scanString]
  split
  · left; rfl
  · right
    exact ⟨_, rfl, rfl, rfl, stringLoopF_line_le _ _ _ _⟩

/-- Each dispatch step either emits no token or appends exactly one token,
which is never of kind EOF, and which carries the line counter as it stands
when the token is emitted (never below the entry line). -/
theorem scanToken_delta (src : List Char) (s : ScanState) :
    (scanToken src s).tokens = s.tokens ∨
      ∃ tok : Token, (scanToken src s).tokens = s.tokens ++ [tok] ∧
        tok.type ≠ TokenType.EOF ∧ tok.line = (scanToken src s).line ∧
        s.line ≤ tok.line := by
  unfold scanToken
  split
  · next tt heq =>
      right
      refine ⟨⟨tt, sliceSrc src s.start (s.current + 1), Literal.null, s.line⟩,
        ?_, singleCharToken_ne_eof _ _ heq, ?_, le_refl _⟩
      · simp [addTok]
      · simp [addTok]
  · split
    · next op heq =>
        split
        · right
          refine ⟨⟨op.withEqual, sliceSrc src s.start (s.current + 2), Literal.null, s.line⟩,
            ?_, (opTokens_ne_eof _ _ heq).1, ?_, le_refl _⟩
          · simp [addTok]
          · simp [addTok]
        · right
          refine ⟨⟨op.single, sliceSrc src s.start (s.current + 1), Literal.null, s.line⟩,
            ?_, (opTokens_ne_eof _ _ heq).2, ?_, le_refl _⟩
          · simp [addTok]
          · simp [addTok]
    · split_ifs with h3 h4 h5 h6 h7 h8 h9
      · left; rfl
      · right
        refine ⟨⟨TokenType.SLASH, sliceSrc src s.start (s.current + 1), Literal.null, s.line⟩,
          ?_, by simp, ?_, le_refl _⟩
        · simp [addTok]
        · simp [addTok]
      · left; rfl
      · left; rfl
      · rcases scanString_delta src { s with current := s.current + 1 } with
          h | ⟨tok, ht, hty, hl, hge⟩
        · left; exact h
        · right; exact ⟨tok, ht, by rw [hty]; decide, hl, hge⟩
      · right
        simp only [scanNumber]
        exact ⟨_, rfl, by simp, rfl, le_refl _⟩
      · right
        simp only [scanIdentifier]
        refine ⟨_, rfl, ?_, rfl, le_refl _⟩
        rcases hk : keywordType (sliceSrc src s.start
            (identEnd src (s.current + 1))) with _ | k
        · simp
        · simpa using keywordType_ne_eof _ _ hk
      · left; rfl

/-! ### Facts about the main scan loop -/

/-- If the cursor is already at the end of the buffer the loop is a no-op. -/
theorem scanLoopF_stop (gas : Nat) (src : List Char) (s : ScanState)
    (h : src.length ≤ s.current) : scanLoopF gas src s = s := by
  cases gas with
  | zero => rfl
  | succ g => rw [scanLoopF, if_neg (by omega)]

/-- With fuel at least `src.length - s.current`, the loop runs the cursor to
the end of the buffer: `scan_tokens` consumes the entire input. -/
theorem scanLoopF_complete (gas : Nat) (src : List Char) :
    ∀ s : ScanState, src.length - s.current ≤ gas →
      src.length ≤ (scanLoopF gas src s).current := by
  induction gas with
  | zero => intro s h; rw [scanLoopF]; omega
  | succ g ih =>
      intro s h
      rw [scanLoopF]
      split
      · next hlt =>
          apply ih
          have h2 := scanToken_current_lt src { s with start := s.current }
          simp only [ScanState.current] at h2
          omega
      · next hge => omega

/-- The loop never decreases the line counter. -/
theorem scanLoopF_line_le (gas : Nat) (src : List Char) :
    ∀ s : ScanState, s.line ≤ (scanLoopF gas src s).line := by
  induction gas with
  | zero => intro s; exact le_refl _
  | succ g ih =>
      intro s
      rw [scanLoopF]
      split
      · exact le_trans (scanToken_line_le src { s with start := s.current }) (ih _)
      · exact le_refl _

/-- Invariant of the scan loop: the accumulated tokens never contain an EOF
kind, their lines never exceed the current line counter, and their line
values are non-decreasing in sequence order. -/
theorem scanLoopF_tokens_inv (gas : Nat) (src : List Char) :
    ∀ s : ScanState,
      (∀ tok ∈ s.tokens, tok.type ≠ TokenType.EOF ∧ tok.line ≤ s.line) →
      List.Sorted (· ≤ ·) (s.tokens.map Token.line) →
      (∀ tok ∈ (scanLoopF gas src s).tokens,
          tok.type ≠ TokenType.EOF ∧ tok.line ≤ (scanLoopF gas src s).line) ∧
        List.Sorted (· ≤ ·) ((scanLoopF gas src s).tokens.map Token.line) := by
  induction gas with
  | zero => intro s h1 h2; exact ⟨h1, h2⟩
  | succ g ih =>
      intro s h1 h2
      rw [scanLoopF]
      split
      · set s0 : ScanState := { s with start := s.current } with hs0
        have h1' : ∀ tok ∈ s0.tokens, tok.type ≠ TokenType.EOF ∧ tok.line ≤ s0.line := h1
        have hline := scanToken_line_le src s0
        rcases scanToken_delta src s0 with hd | ⟨tok, ht, hty, htl, htge⟩
        · apply ih
          · intro tok hm
            rw [hd] at hm
            exact ⟨(h1' tok hm).1, le_trans (h1' tok hm).2 hline⟩
          · rw [hd]; exact h2
        · apply ih
          · intro tk hm
            rw [ht] at hm
            rcases List.mem_append.mp hm with hm | hm
            · exact ⟨(h1' tk hm).1, le_trans (h1' tk hm).2 hline⟩
            · rcases List.mem_singleton.mp hm with rfl
              exact ⟨hty, le_of_eq htl⟩
          · rw [ht, List.map_append]
            rw [List.Sorted, List.pairwise_append]
            refine ⟨h2, by simp, ?_⟩
            intro a ha b hb
            simp only [List.mem_map] at ha
            rcases ha with ⟨ta, hta, rfl⟩
            simp only [List.map_cons, List.map_nil, List.mem_singleton] at hb
            subst hb
            exact le_trans (h1' ta hta).2 (le_trans hline (le_of_eq htl.symm))
      · exact ⟨h1, h2⟩

/-- Frame lemma for the scan loop: tokens and diagnostics are append-only,
and what is appended does not depend on the token list and diagnostic list
the scan starts from. -/
theorem scanLoopF_frame (gas : Nat) (src : List Char) :
    ∀ (t : List Token) (st c l : Nat) (e : List Diag),
      scanLoopF gas src ⟨t, st, c, l, e⟩ =
        ⟨t ++ (scanLoopF gas src ⟨[], st, c, l, []⟩).tokens,
         (scanLoopF gas src ⟨[], st, c, l, []⟩).start,
         (scanLoopF gas src ⟨[], st, c, l, []⟩).current,
         (scanLoopF gas src ⟨[], st, c, l, []⟩).line,
         e ++ (scanLoopF gas src ⟨[], st, c, l, []⟩).errors⟩ := by
  induction gas with
  | zero => intro t st c l e; simp [scanLoopF]
  | succ g ih =>
      intro t st c l e
      rw [scanLoopF, scanLoopF]
      by_cases h : c < src.length
      · rw [if_pos h, if_pos h]
        show scanLoopF g src (scanToken src ⟨t, c, c, l, e⟩) =
          ⟨t ++ (scanLoopF g src (scanToken src ⟨[], c, c, l, []⟩)).tokens,
           (scanLoopF g src (scanToken src ⟨[], c, c, l, []⟩)).start,
           (scanLoopF g src (scanToken src ⟨[], c, c, l, []⟩)).current,
           (scanLoopF g src (scanToken src ⟨[], c, c, l, []⟩)).line,
           e ++ (scanLoopF g src (scanToken src ⟨[], c, c, l, []⟩)).errors⟩
        set r := scanToken src ⟨[], c, c, l, []⟩ with hr
        have h2 : scanLoopF g src r =
            ⟨r.tokens ++ (scanLoopF g src ⟨[], r.start, r.current, r.line, []⟩).tokens,
             (scanLoopF g src ⟨[], r.start, r.current, r.line, []⟩).start,
             (scanLoopF g src ⟨[], r.start, r.current, r.line, []⟩).current,
             (scanLoopF g src ⟨[], r.start, r.current, r.line, []⟩).line,
             r.errors ++ (scanLoopF g src ⟨[], r.start, r.current, r.line, []⟩).errors⟩ :=
          ih r.tokens r.start r.current r.line r.errors
        rw [scanToken_frame src t c c l e, ← hr,
          ih (t ++ r.tokens) r.start r.current r.line (e ++ r.errors), h2]
        simp
      · rw [if_neg h, if_neg h]
        simp

/-! ### Claim theorems -/

/-- C1: the claim asserts that a lead `>` emits GREATER / GREATER_EQUAL and
never BANG / BANG_EQUAL; the code as written disagrees: its operator table
(lox.py line 120) maps `>` to the BANG pair, so scanning `">"` yields a BANG
token and scanning `">="` yields a BANG_EQUAL token. -/
theorem C1_greater_scans_as_bang :
    (scanTokens ['>']).tokens =
      [⟨TokenType.BANG, ['>'], Literal.null, 1⟩,
       ⟨TokenType.EOF, [], Literal.null, 1⟩] ∧
    (scanTokens ['>', '=']).tokens =
      [⟨TokenType.BANG_EQUAL, ['>', '='], Literal.null, 1⟩,
       ⟨TokenType.EOF, [], Literal.null, 1⟩] :=
  ⟨by decide, by decide⟩

/-- C2: for every input string, `scan_tokens` consumes the entire buffer and
returns a finite token list whose last element is an EOF token with empty
lexeme and absent literal, and that token is the only one of kind EOF. -/
theorem C2_scan_terminates_eof_last_unique (src : List Char) :
    (scanTokens src).tokens.getLast? =
        some ⟨TokenType.EOF, [], Literal.null, (scanTokens src).line⟩ ∧
      ((scanTokens src).tokens.filter
        (fun tok => tok.type == TokenType.EOF)).length = 1 ∧
      src.length ≤ (scanTokens src).current := by
  have hinv := scanLoopF_tokens_inv src.length src (initState [])
    (by intro tok hm; simp [initState] at hm) (by simp [initState])
  have hcomp := scanLoopF_complete src.length src (initState []) (by simp [initState])
  simp only [scanTokens, scanTokensWith]
  refine ⟨List.getLast?_concat _, ?_, hcomp⟩
  rw [List.filter_append]
  have hnil : (scanLoopF src.length src (initState [])).tokens.filter
      (fun tok => tok.type == TokenType.EOF) = [] := by
    rw [List.filter_eq_nil_iff]
    intro tok hm
    simpa using (hinv.1 tok hm).1
  rw [hnil]
  simp

/-- C3: for every input string, the `line` fields of the tokens returned by
`scan_tokens` are non-decreasing in sequence order. -/
theorem C3_token_lines_monotone (src : List Char) :
    List.Sorted (· ≤ ·) ((scanTokens src).tokens.map Token.line) := by
  have hinv := scanLoopF_tokens_inv src.length src (initState [])
    (by intro tok hm; simp [initState] at hm) (by simp [initState])
  simp only [scanTokens, scanTokensWith]
  rw [List.map_append, List.Sorted, List.pairwise_append]
  refine ⟨hinv.2, by simp, ?_⟩
  intro a ha b hb
  simp only [List.mem_map] at ha
  rcases ha with ⟨ta, hta, rfl⟩
  simp only [List.map_cons, List.map_nil, List.mem_singleton] at hb
  subst hb
  exact (hinv.1 ta hta).2

/-- C7: maximal munch on `!`: scanning `"!="` produces exactly one
BANG_EQUAL token (not BANG then EQUAL), scanning `"!"` produces exactly one
BANG token, each followed by the EOF token. -/
theorem C7_maximal_munch_bang :
    (scanTokens ['!', '=']).tokens =
      [⟨TokenType.BANG_EQUAL, ['!', '='], Literal.null, 1⟩,
       ⟨TokenType.EOF, [], Literal.null, 1⟩] ∧
    (scanTokens ['!']).tokens =
      [⟨TokenType.BANG, ['!'], Literal.null, 1⟩,
       ⟨TokenType.EOF, [], Literal.null, 1⟩] :=
  ⟨by decide, by decide⟩

/-- C9: scanning depends on nothing but the source text: the token sequence
produced over a fresh scanner is the same whatever diagnostics the supplied
error handler may already hold, and the scan appends the same new
diagnostics after whatever was recorded before. -/
theorem C9_scan_deterministic (src : List Char) (e1 e2 : List Diag) :
    (scanTokensWith src e1).tokens = (scanTokensWith src e2).tokens ∧
    (scanTokensWith src e1).errors = e1 ++ (scanTokens src).errors ∧
    (scanTokensWith src e2).errors = e2 ++ (scanTokens src).errors := by
  have h1 := scanLoopF_frame src.length src [] 0 0 1 e1
  have h2 := scanLoopF_frame src.length src [] 0 0 1 e2
  simp only [scanTokens, scanTokensWith, initState]
  rw [h1, h2]
  simp

/-- C10: scanning the empty source yields exactly the EOF token (empty
lexeme, absent literal, line 1) and records no diagnostics. -/
theorem C10_empty_source :
    scanTokens [] = ⟨[⟨TokenType.EOF, [], Literal.null, 1⟩], 0, 0, 1, []⟩ := by
  decide

/-! ### Characterization of the digit run and of string scanning -/

/-- If the index is past the end of the buffer, peeking yields `'\0'`. -/
theorem peekAt_of_le (src : List Char) (i : Nat) (h : src.length ≤ i) :
    peekAt src i = '\x00' :=
  List.getD_eq_default src _ h

/-- In range, peeking yields the buffer character. -/
theorem peekAt_of_lt (src : List Char) (i : Nat) (h : i < src.length) :
    peekAt src i = src[i] :=
  List.getD_eq_getElem src _ h

/-- The digit loop consumes exactly a maximal run: every position it covers
holds a digit, and the position it stops at does not (possibly because it is
past the end of the buffer). -/
theorem digitsLoopF_spec (gas : Nat) (src : List Char) :
    ∀ cur, src.length ≤ cur + gas →
      (∀ i, cur ≤ i → i < digitsLoopF gas src cur →
        isAsciiDigit (peekAt src i) = true) ∧
      isAsciiDigit (peekAt src (digitsLoopF gas src cur)) = false := by
  induction gas with
  | zero =>
      intro cur h
      refine ⟨fun i h1 h2 => absurd (lt_of_le_of_lt h1 h2) (lt_irrefl _), ?_⟩
      rw [show digitsLoopF 0 src cur = cur from rfl, peekAt_of_le src cur (by omega)]
      decide
  | succ g ih =>
      intro cur h
      rw [digitsLoopF]
      cases hc : isAsciiDigit (peekAt src cur) with
      | false =>
          simp only [hc, Bool.false_eq_true, if_false]
          exact ⟨fun i h1 h2 => absurd (lt_of_le_of_lt h1 h2) (lt_irrefl _), trivial⟩
      | true =>
          simp only [hc, if_true]
          have hend := digitsLoopF_le g src (cur + 1)
          rcases ih (cur + 1) (by omega) with ⟨ih1, ih2⟩
          refine ⟨?_, ih2⟩
          intro i h1 h2
          rcases Nat.eq_or_lt_of_le h1 with rfl | h1'
          · exact hc
          · exact ih1 i h1' h2

/-- When the dispatch lead character is `"`, `scanToken` runs the string
recognizer from just past the opening quote. -/
theorem scanToken_eq_quote (src : List Char) (s : ScanState)
    (h : peekAt src s.current = '"') :
    scanToken src s = scanString src { s with current := s.current + 1 } := by
  unfold scanToken
  rw [h]
  rfl

/-- If no closing quote occurs anywhere from the cursor to the end of the
buffer, the string loop consumes the whole buffer and adds one line per
newline character passed over. -/
theorem stringLoopF_no_quote (gas : Nat) (src : List Char) :
    ∀ cur line, cur ≤ src.length → src.length ≤ cur + gas →
      (∀ i, cur ≤ i → i < src.length → peekAt src i ≠ '"') →
      stringLoopF gas src cur line =
        (src.length, line + (src.drop cur).countP (fun c => c = '\n')) := by
  induction gas with
  | zero =>
      intro cur line h1 h2 h3
      have hce : cur = src.length := by omega
      subst hce
      simp [stringLoopF]
  | succ g ih =>
      intro cur line h1 h2 h3
      rw [stringLoopF]
      by_cases hcur : cur < src.length
      · rw [if_pos ⟨h3 cur (le_refl _) hcur, hcur⟩]
        rw [ih (cur + 1) _ (by omega) (by omega) (fun i hi1 hi2 => h3 i (by omega) hi2)]
        rw [List.drop_eq_getElem_cons hcur, List.countP_cons]
        rw [peekAt_of_lt src cur hcur]
        simp only [Prod.mk.injEq]
        by_cases hn : src[cur] = '\n'
        · rw [if_pos hn, if_pos (by simp [hn])]
          exact ⟨trivial, by omega⟩
        · rw [if_neg hn, if_neg (by simp [hn])]
          exact ⟨trivial, by omega⟩
      · rw [if_neg (by intro hco; exact hcur hco.2)]
        have hce : cur = src.length := by omega
        subst hce
        simp

/-- If the content before the first closing quote is `content`, the string
loop stops exactly at that quote, adding one line per newline passed. -/
theorem stringLoopF_quote (src : List Char) (content : List Char) :
    ∀ (gas cur line : Nat) (tail : List Char),
      src.drop cur = content ++ '"' :: tail → '"' ∉ content →
      content.length ≤ gas →
      stringLoopF gas src cur line =
        (cur + content.length, line + content.countP (fun c => c = '\n')) := by
  induction content with
  | nil =>
      intro gas cur line tail hdrop hmem hlen
      have hcur : cur < src.length := by
        by_contra hge
        rw [List.drop_eq_nil_of_le (by omega)] at hdrop
        exact List.cons_ne_nil _ _ hdrop.symm
      have hq : peekAt src cur = '"' := by
        rw [peekAt_of_lt src cur hcur]
        have h0 := List.drop_eq_getElem_cons hcur
        rw [hdrop] at h0
        exact (List.cons_eq_cons.mp h0.symm).1
      cases gas with
      | zero => simp [stringLoopF]
      | succ g =>
          rw [stringLoopF, if_neg (by simp [hq])]
          simp
  | cons c cs ih =>
      intro gas cur line tail hdrop hmem hlen
      have hcur : cur < src.length := by
        by_contra hge
        rw [List.drop_eq_nil_of_le (by omega)] at hdrop
        exact List.cons_ne_nil _ _ hdrop.symm
      have hc : peekAt src cur = c := by
        rw [peekAt_of_lt src cur hcur]
        have h0 := List.drop_eq_getElem_cons hcur
        rw [hdrop, List.cons_append] at h0
        exact (List.cons_eq_cons.mp h0.symm).1
      have hcq : c ≠ '"' := fun hcq => hmem (by rw [hcq]; exact List.mem_cons_self _ _)
      cases gas with
      | zero => simp at hlen
      | succ g =>
          rw [stringLoopF, if_pos ⟨by rw [hc]; exact hcq, hcur⟩]
          have hdrop' : src.drop (cur + 1) = cs ++ '"' :: tail := by
            rw [← List.drop_drop, hdrop]
            rfl
          rw [ih g (cur + 1) _ tail hdrop'
            (fun hm => hmem (List.mem_cons_of_mem _ hm)) (by simpa using hlen)]
          rw [List.countP_cons, hc]
          simp only [Prod.mk.injEq, List.length_cons]
          by_cases hn : c = '\n'
          · rw [if_pos hn, if_pos (by simp [hn])]
            exact ⟨by omega, by omega⟩
          · rw [if_neg hn, if_neg (by simp [hn])]
            exact ⟨by omega, by omega⟩

/-- C4: number recognition consumes a maximal digit run (every covered
position is a digit and the stopping position is not), consumes a `.` and a
further digit run only when a digit immediately follows the `.`, and the
NUMBER literal is the decimal value of the matched text; in particular
`"123"` gives literal 123, `"45.67"` gives literal 45.67, and `"45."` gives
literal 45 followed by a separate DOT token. -/
theorem C4_number_recognition :
    (∀ (src : List Char) (cur : Nat),
      cur ≤ digitsEnd src cur ∧
      ((List.range' cur (digitsEnd src cur - cur)).all
          (fun i => isAsciiDigit (peekAt src i))) = true ∧
      isAsciiDigit (peekAt src (digitsEnd src cur)) = false) ∧
    (scanTokens ['1', '2', '3']).tokens =
      [⟨TokenType.NUMBER, ['1', '2', '3'],
        Literal.num (decimalValue ['1', '2', '3']), 1⟩,
       ⟨TokenType.EOF, [], Literal.null, 1⟩] ∧
    decimalValue ['1', '2', '3'] = 123 ∧
    (scanTokens ['4', '5', '.', '6', '7']).tokens =
      [⟨TokenType.NUMBER, ['4', '5', '.', '6', '7'],
        Literal.num (decimalValue ['4', '5', '.', '6', '7']), 1⟩,
       ⟨TokenType.EOF, [], Literal.null, 1⟩] ∧
    decimalValue ['4', '5', '.', '6', '7'] = 45.67 ∧
    (scanTokens ['4', '5', '.']).tokens =
      [⟨TokenType.NUMBER, ['4', '5'], Literal.num (decimalValue ['4', '5']), 1⟩,
       ⟨TokenType.DOT, ['.'], Literal.null, 1⟩,
       ⟨TokenType.EOF, [], Literal.null, 1⟩] ∧
    decimalValue ['4', '5'] = 45 := by
  refine ⟨?_, by rfl, ?_, by rfl, ?_, by rfl, ?_⟩
  · intro src cur
    simp only [digitsEnd]
    have hspec := digitsLoopF_spec (src.length - cur) src cur (by omega)
    have hX := digitsLoopF_le (src.length - cur) src cur
    refine ⟨hX, ?_, hspec.2⟩
    rw [List.all_eq_true]
    intro i hi
    rw [List.mem_range'_1] at hi
    exact hspec.1 i hi.1 (by omega)
  · rw [decimalValue]
    rw [show List.takeWhile (fun c => c ≠ '.') ['1', '2', '3'] = ['1', '2', '3'] from by decide]
    rw [show (List.dropWhile (fun c => c ≠ '.') ['1', '2', '3']).drop 1 = [] from by decide]
    rw [show digitsToNat 0 ['1', '2', '3'] = 123 from by decide]
    rw [show digitsToNat 0 ([] : List Char) = 0 from by decide]
    norm_num
  · rw [decimalValue]
    rw [show List.takeWhile (fun c => c ≠ '.') ['4', '5', '.', '6', '7'] = ['4', '5'] from by decide]
    rw [show (List.dropWhile (fun c => c ≠ '.') ['4', '5', '.', '6', '7']).drop 1 = ['6', '7'] from by decide]
    rw [show digitsToNat 0 ['4', '5'] = 45 from by decide]
    rw [show digitsToNat 0 ['6', '7'] = 67 from by decide]
    norm_num
  · rw [decimalValue]
    rw [show List.takeWhile (fun c => c ≠ '.') ['4', '5'] = ['4', '5'] from by decide]
    rw [show (List.dropWhile (fun c => c ≠ '.') ['4', '5']).drop 1 = [] from by decide]
    rw [show digitsToNat 0 ['4', '5'] = 45 from by decide]
    rw [show digitsToNat 0 ([] : List Char) = 0 from by decide]
    norm_num

/-- C5: when a string literal's opening quote is never closed before the
end of the input, the scan records exactly one "Unterminated string."
diagnostic (at the line where scanning stopped), emits no token for the
lexeme, and still appends the EOF token. -/
theorem C5_unterminated_string (rest : List Char) (h : '"' ∉ rest) :
    (scanTokens ('"' :: rest)).tokens =
        [⟨TokenType.EOF, [], Literal.null,
          1 + rest.countP (fun c => c = '\n')⟩] ∧
      (scanTokens ('"' :: rest)).errors =
        [⟨1 + rest.countP (fun c => c = '\n'), "Unterminated string."⟩] := by
  have hstep : scanToken ('"' :: rest) ⟨[], 0, 0, 1, []⟩ =
      scanString ('"' :: rest) ⟨[], 0, 1, 1, []⟩ :=
    scanToken_eq_quote ('"' :: rest) ⟨[], 0, 0, 1, []⟩ rfl
  have hnoq : ∀ i, 1 ≤ i → i < ('"' :: rest).length →
      peekAt ('"' :: rest) i ≠ '"' := by
    intro i h1 h2
    rw [peekAt_of_lt _ i h2]
    intro hceq
    apply h
    rcases i with _ | j
    · omega
    · rw [List.getElem_cons_succ] at hceq
      rw [← hceq]
      exact List.getElem_mem _
  have hsl : stringLoopF (('"' :: rest).length - 1) ('"' :: rest) 1 1 =
      (('"' :: rest).length, 1 + rest.countP (fun c => c = '\n')) := by
    rw [stringLoopF_no_quote (('"' :: rest).length - 1) ('"' :: rest) 1 1
      (by simp) (by simp; omega) hnoq]
    rfl
  have hscan : scanString ('"' :: rest) ⟨[], 0, 1, 1, []⟩ =
      ⟨[], 0, ('"' :: rest).length, 1 + rest.countP (fun c => c = '\n'),
       [⟨1 + rest.countP (fun c => c = '\n'), "Unterminated string."⟩]⟩ := by
    simp only [scanString]
    rw [hsl]
    simp
  have hloop : scanLoopF ('"' :: rest).length ('"' :: rest) (initState []) =
      ⟨[], 0, ('"' :: rest).length, 1 + rest.countP (fun c => c = '\n'),
       [⟨1 + rest.countP (fun c => c = '\n'), "Unterminated string."⟩]⟩ := by
    rw [show ('"' :: rest).length = rest.length + 1 from rfl, scanLoopF,
      if_pos (by simp [initState])]
    show scanLoopF rest.length ('"' :: rest)
        (scanToken ('"' :: rest) ⟨[], 0, 0, 1, []⟩) = _
    rw [hstep, hscan]
    exact scanLoopF_stop _ _ _ (by simp)
  simp only [scanTokens, scanTokensWith]
  rw [hloop]
  simp

/-- Witness for C5 at the concrete input `"abc` (opening quote, no close):
exactly one EOF token and exactly one recorded diagnostic. -/
theorem C5_unterminated_string_witness :
    (scanTokens ['"', 'a', 'b', 'c']).tokens =
        [⟨TokenType.EOF, [], Literal.null, 1⟩] ∧
      (scanTokens ['"', 'a', 'b', 'c']).errors =
        [⟨1, "Unterminated string."⟩] :=
  C5_unterminated_string ['a', 'b', 'c'] (by decide)

/-- C6: for every terminated string lexeme (scanner positioned just past the
opening quote, with the closing quote the first quote ahead), the emitted
STRING token's literal is exactly the source text strictly between the two
quotes — no escape processing — and the line counter grows by one per
newline inside the string. -/
theorem C6_string_literal_between_quotes (pre content post : List Char)
    (t : List Token) (l : Nat) (e : List Diag) (h : '"' ∉ content) :
    scanString (pre ++ '"' :: (content ++ '"' :: post))
        ⟨t, pre.length, pre.length + 1, l, e⟩ =
      ⟨t ++ [⟨TokenType.STRING, '"' :: (content ++ ['"']),
             Literal.str content, l + content.countP (fun c => c = '\n')⟩],
       pre.length, pre.length + content.length + 2,
       l + content.countP (fun c => c = '\n'), e⟩ := by
  set src := pre ++ '"' :: (content ++ '"' :: post) with hsrc
  have hlen : src.length = pre.length + content.length + post.length + 2 := by
    simp [hsrc]
    omega
  have hdropPre : src.drop pre.length = '"' :: (content ++ '"' :: post) := by
    rw [hsrc]
    exact List.drop_left pre _
  have hdrop : src.drop (pre.length + 1) = content ++ '"' :: post := by
    rw [← List.drop_drop, hdropPre]
    rfl
  have hsl : stringLoopF (src.length - (pre.length + 1)) src (pre.length + 1) l =
      (pre.length + 1 + content.length, l + content.countP (fun c => c = '\n')) :=
    stringLoopF_quote src content _ (pre.length + 1) l post hdrop h (by omega)
  have hs1 : sliceSrc src pre.length (pre.length + 1 + content.length + 1) =
      '"' :: (content ++ ['"']) := by
    simp only [sliceSrc, hdropPre]
    rw [show pre.length + 1 + content.length + 1 - pre.length =
      content.length + 1 + 1 from by omega]
    rw [List.take_succ_cons, List.take_append 1]
    simp
  have hs2 : sliceSrc src (pre.length + 1) (pre.length + 1 + content.length) =
      content := by
    simp only [sliceSrc, hdrop]
    rw [show pre.length + 1 + content.length - (pre.length + 1) =
      content.length from by omega]
    exact List.take_left content _
  simp only [scanString]
  rw [hsl]
  rw [if_neg (by simp; omega)]
  rw [hs1, hs2, show pre.length + 1 + content.length + 1 =
    pre.length + content.length + 2 from by omega]

/-- Witness for C6 at a concrete multi-line string lexeme: the literal is
the text strictly between the quotes (backslash-free here, quotes stripped)
and the line counter advances by the one embedded newline. -/
theorem C6_string_literal_between_quotes_witness :
    scanString ['"', 'a', '\n', 'b', '"'] ⟨[], 0, 1, 1, []⟩ =
      ⟨[⟨TokenType.STRING, ['"', 'a', '\n', 'b', '"'],
         Literal.str ['a', '\n', 'b'], 2⟩], 0, 5, 2, []⟩ :=
  C6_string_literal_between_quotes [] ['a', '\n', 'b'] [] [] 1 [] (by decide)

/-! ### Which characters the dispatch tables accept -/

theorem singleCharToken_char (c : Char) (tt : TokenType)
    (h : singleCharToken c = some tt) :
    c = '(' ∨ c = ')' ∨ c = '\x7b' ∨ c = '\x7d' ∨ c = ',' ∨ c = '.' ∨
      c = '-' ∨ c = '+' ∨ c = ';' ∨ c = '*' := by
  unfold singleCharToken at h
  split at h <;> simp_all

theorem opTokens_char (c : Char) (op : OpTokenPair) (h : opTokens c = some op) :
    c = '!' ∨ c = '=' ∨ c = '<' ∨ c = '>' := by
  unfold opTokens at h
  split at h <;> simp_all

theorem singleCharToken_none_of_digit (c : Char) (h : isAsciiDigit c = true) :
    singleCharToken c = none := by
  rcases hsc : singleCharToken c with _ | tt
  · rfl
  · rcases singleCharToken_char c tt hsc with
      rfl | rfl | rfl | rfl | rfl | rfl | rfl | rfl | rfl | rfl <;>
      exact absurd h (by decide)

theorem opTokens_none_of_digit (c : Char) (h : isAsciiDigit c = true) :
    opTokens c = none := by
  rcases hop : opTokens c with _ | op
  · rfl
  · rcases opTokens_char c op hop with rfl | rfl | rfl | rfl <;>
      exact absurd h (by decide)

theorem singleCharToken_none_of_alpha (c : Char) (h : isAsciiAlpha c = true) :
    singleCharToken c = none := by
  rcases hsc : singleCharToken c with _ | tt
  · rfl
  · rcases singleCharToken_char c tt hsc with
      rfl | rfl | rfl | rfl | rfl | rfl | rfl | rfl | rfl | rfl <;>
      exact absurd h (by decide)

theorem opTokens_none_of_alpha (c : Char) (h : isAsciiAlpha c = true) :
    opTokens c = none := by
  rcases hop : opTokens c with _ | op
  · rfl
  · rcases opTokens_char c op hop with rfl | rfl | rfl | rfl <;>
      exact absurd h (by decide)

/-! ### Evaluation of one dispatch step per lead-character class -/

theorem scanToken_eq_single (src : List Char) (s : ScanState) (tt : TokenType)
    (hsc : singleCharToken (peekAt src s.current) = some tt) :
    scanToken src s = addTok src { s with current := s.current + 1 } tt Literal.null := by
  unfold scanToken
  rw [hsc]

theorem scanToken_eq_op (src : List Char) (s : ScanState) (op : OpTokenPair)
    (hsc : singleCharToken (peekAt src s.current) = none)
    (hop : opTokens (peekAt src s.current) = some op) :
    scanToken src s =
      if matchChar src (s.current + 1) '=' = true then
        addTok src { s with current := s.current + 2 } op.withEqual Literal.null
      else
        addTok src { s with current := s.current + 1 } op.single Literal.null := by
  unfold scanToken
  rw [hsc, hop]

theorem scanToken_eq_slash (src : List Char) (s : ScanState)
    (h : peekAt src s.current = '/') :
    scanToken src s =
      if matchChar src (s.current + 1) '/' = true then
        { s with current := commentEnd src (s.current + 2) }
      else
        addTok src { s with current := s.current + 1 } TokenType.SLASH Literal.null := by
  unfold scanToken
  rw [h]
  rfl

theorem scanToken_eq_ws (src : List Char) (s : ScanState)
    (h : peekAt src s.current = ' ' ∨ peekAt src s.current = '\r' ∨
      peekAt src s.current = '\t') :
    scanToken src s = { s with current := s.current + 1 } := by
  rcases h with h | h | h <;> (unfold scanToken; rw [h]; rfl)

theorem scanToken_eq_newline (src : List Char) (s : ScanState)
    (h : peekAt src s.current = '\n') :
    scanToken src s = { s with current := s.current + 1, line := s.line + 1 } := by
  unfold scanToken
  rw [h]
  rfl

theorem scanToken_eq_digit (src : List Char) (s : ScanState)
    (h : isAsciiDigit (peekAt src s.current) = true) :
    scanToken src s = scanNumber src { s with current := s.current + 1 } := by
  unfold scanToken
  simp only [singleCharToken_none_of_digit _ h, opTokens_none_of_digit _ h]
  rw [if_neg (fun hc => by rw [hc] at h; exact absurd h (by decide)),
    if_neg (fun hc => by
      rcases hc with hc | hc | hc <;> (rw [hc] at h; exact absurd h (by decide))),
    if_neg (fun hc => by rw [hc] at h; exact absurd h (by decide)),
    if_neg (fun hc => by rw [hc] at h; exact absurd h (by decide)),
    if_pos h]

theorem scanToken_eq_alpha (src : List Char) (s : ScanState)
    (h : isAsciiAlpha (peekAt src s.current) = true)
    (hd : isAsciiDigit (peekAt src s.current) = false) :
    scanToken src s = scanIdentifier src { s with current := s.current + 1 } := by
  unfold scanToken
  simp only [singleCharToken_none_of_alpha _ h, opTokens_none_of_alpha _ h]
  rw [if_neg (fun hc => by rw [hc] at h; exact absurd h (by decide)),
    if_neg (fun hc => by
      rcases hc with hc | hc | hc <;> (rw [hc] at h; exact absurd h (by decide))),
    if_neg (fun hc => by rw [hc] at h; exact absurd h (by decide)),
    if_neg (fun hc => by rw [hc] at h; exact absurd h (by decide)),
    if_neg (by simp [hd]), if_pos h]

theorem scanToken_eq_other (src : List Char) (s : ScanState)
    (hsc : singleCharToken (peekAt src s.current) = none)
    (hop : opTokens (peekAt src s.current) = none)
    (h1 : peekAt src s.current ≠ '/')
    (h2 : ¬(peekAt src s.current = ' ' ∨ peekAt src s.current = '\r' ∨
      peekAt src s.current = '\t'))
    (h3 : peekAt src s.current ≠ '\n')
    (h4 : peekAt src s.current ≠ '"')
    (h5 : isAsciiDigit (peekAt src s.current) = false)
    (h6 : isAsciiAlpha (peekAt src s.current) = false) :
    scanToken src s =
      { s with current := s.current + 1, errors := s.errors ++ [⟨s.line, "Unexpected character"⟩] } := by
  unfold scanToken
  simp only [hsc, hop]
  rw [if_neg h1, if_neg h2, if_neg h3, if_neg h4, if_neg (by simp [h5]),
    if_neg (by simp [h6])]

/-! ### Upper bounds, uniqueness and characterization of the loops -/

theorem digitsLoopF_le_add (gas : Nat) (src : List Char) :
    ∀ p, digitsLoopF gas src p ≤ p + gas := by
  induction gas with
  | zero => intro p; simp [digitsLoopF]
  | succ g ih =>
      intro p
      rw [digitsLoopF]
      split
      · exact le_trans (ih (p + 1)) (by omega)
      · omega

theorem identLoopF_le_add (gas : Nat) (src : List Char) :
    ∀ p, identLoopF gas src p ≤ p + gas := by
  induction gas with
  | zero => intro p; simp [identLoopF]
  | succ g ih =>
      intro p
      rw [identLoopF]
      split
      · exact le_trans (ih (p + 1)) (by omega)
      · omega

theorem commentLoopF_le_add (gas : Nat) (src : List Char) :
    ∀ p, commentLoopF gas src p ≤ p + gas := by
  induction gas with
  | zero => intro p; simp [commentLoopF]
  | succ g ih =>
      intro p
      rw [commentLoopF]
      split
      · exact le_trans (ih (p + 1)) (by omega)
      · omega

theorem stringLoopF_le_add (gas : Nat) (src : List Char) :
    ∀ p l, (stringLoopF gas src p l).1 ≤ p + gas := by
  induction gas with
  | zero => intro p l; simp [stringLoopF]
  | succ g ih =>
      intro p l
      rw [stringLoopF]
      split
      · exact le_trans (ih (p + 1) _) (by omega)
      · omega

theorem digitsLoopF_eq (src : List Char) :
    ∀ (k gas p : Nat),
      (∀ i, p ≤ i → i < p + k → isAsciiDigit (peekAt src i) = true) →
      isAsciiDigit (peekAt src (p + k)) = false →
      k ≤ gas →
      digitsLoopF gas src p = p + k := by
  intro k
  induction k with
  | zero =>
      intro gas p h1 h2 h3
      simp only [Nat.add_zero] at h2 ⊢
      cases gas with
      | zero => rfl
      | succ g => rw [digitsLoopF, if_neg (by simp [h2])]
  | succ j ih =>
      intro gas p h1 h2 h3
      cases gas with
      | zero => exact absurd h3 (by omega)
      | succ g =>
          rw [digitsLoopF, if_pos (h1 p (le_refl p) (by omega))]
          rw [ih g (p + 1) (fun i hi1 hi2 => h1 i (by omega) (by omega))
            (by rw [show p + 1 + j = p + (j + 1) from by omega]; exact h2) (by omega)]
          omega

theorem identLoopF_eq (src : List Char) :
    ∀ (k gas p : Nat),
      (∀ i, p ≤ i → i < p + k → isAsciiAlphanum (peekAt src i) = true) →
      isAsciiAlphanum (peekAt src (p + k)) = false →
      k ≤ gas →
      identLoopF gas src p = p + k := by
  intro k
  induction k with
  | zero =>
      intro gas p h1 h2 h3
      simp only [Nat.add_zero] at h2 ⊢
      cases gas with
      | zero => rfl
      | succ g => rw [identLoopF, if_neg (by simp [h2])]
  | succ j ih =>
      intro gas p h1 h2 h3
      cases gas with
      | zero => exact absurd h3 (by omega)
      | succ g =>
          rw [identLoopF, if_pos (h1 p (le_refl p) (by omega))]
          rw [ih g (p + 1) (fun i hi1 hi2 => h1 i (by omega) (by omega))
            (by rw [show p + 1 + j = p + (j + 1) from by omega]; exact h2) (by omega)]
          omega

theorem commentLoopF_eq (src : List Char) :
    ∀ (k gas p : Nat),
      (∀ i, p ≤ i → i < p + k → peekAt src i ≠ '\n') →
      p + k ≤ src.length →
      (src.length ≤ p + k ∨ peekAt src (p + k) = '\n') →
      k ≤ gas →
      commentLoopF gas src p = p + k := by
  intro k
  induction k with
  | zero =>
      intro gas p h1 h2 h3 h4
      simp only [Nat.add_zero] at h2 h3 ⊢
      cases gas with
      | zero => rfl
      | succ g =>
          rw [commentLoopF, if_neg ?_]
          intro hco
          rcases h3 with h3 | h3
          · omega
          · exact hco.1 h3
  | succ j ih =>
      intro gas p h1 h2 h3 h4
      cases gas with
      | zero => exact absurd h4 (by omega)
      | succ g =>
          rw [commentLoopF, if_pos ⟨h1 p (le_refl p) (by omega), by omega⟩]
          rw [ih g (p + 1) (fun i hi1 hi2 => h1 i (by omega) (by omega))
            (by omega)
            (by rw [show p + 1 + j = p + (j + 1) from by omega]; exact h3) (by omega)]
          omega

theorem sliceSrc_cons (src : List Char) (p b : Nat) (hp : p < src.length)
    (hb : p < b) : sliceSrc src p b = src[p] :: sliceSrc src (p + 1) b := by
  simp only [sliceSrc]
  rw [List.drop_eq_getElem_cons hp,
    show b - p = (b - (p + 1)) + 1 from by omega, List.take_succ_cons]

theorem stringLoopF_eq (src : List Char) :
    ∀ (k gas p l : Nat),
      (∀ i, p ≤ i → i < p + k → peekAt src i ≠ '"') →
      p + k ≤ src.length →
      (src.length ≤ p + k ∨ peekAt src (p + k) = '"') →
      k ≤ gas →
      stringLoopF gas src p l =
        (p + k, l + (sliceSrc src p (p + k)).countP (fun c => c = '\n')) := by
  intro k
  induction k with
  | zero =>
      intro gas p l h1 h2 h3 h4
      simp only [Nat.add_zero] at h2 h3 ⊢
      have hsl : (sliceSrc src p p).countP (fun c => c = '\n') = 0 := by
        simp [sliceSrc]
      rw [hsl]
      cases gas with
      | zero => simp [stringLoopF]
      | succ g =>
          rw [stringLoopF, if_neg ?_]
          · simp
          · intro hco
            rcases h3 with h3 | h3
            · omega
            · exact hco.1 h3
  | succ j ih =>
      intro gas p l h1 h2 h3 h4
      have hp : p < src.length := by omega
      cases gas with
      | zero => exact absurd h4 (by omega)
      | succ g =>
          rw [stringLoopF, if_pos ⟨h1 p (le_refl p) (by omega), hp⟩]
          rw [ih g (p + 1) _ (fun i hi1 hi2 => h1 i (by omega) (by omega))
            (by omega)
            (by rw [show p + 1 + j = p + (j + 1) from by omega]; exact h3) (by omega)]
          rw [sliceSrc_cons src p (p + (j + 1)) hp (by omega), List.countP_cons]
          rw [show p + (j + 1) = p + 1 + j from by omega]
          rw [peekAt_of_lt src p hp]
          simp only [Prod.mk.injEq]
          by_cases hn : src[p] = '\n'
          · rw [if_pos hn, if_pos (by simp [hn])]
            exact ⟨trivial, by omega⟩
          · rw [if_neg hn, if_neg (by simp [hn])]
            exact ⟨trivial, by omega⟩

theorem identLoopF_spec (gas : Nat) (src : List Char) :
    ∀ cur, src.length ≤ cur + gas →
      (∀ i, cur ≤ i → i < identLoopF gas src cur →
        isAsciiAlphanum (peekAt src i) = true) ∧
      isAsciiAlphanum (peekAt src (identLoopF gas src cur)) = false := by
  induction gas with
  | zero =>
      intro cur h
      refine ⟨fun i h1 h2 => absurd (lt_of_le_of_lt h1 h2) (lt_irrefl _), ?_⟩
      rw [show identLoopF 0 src cur = cur from rfl, peekAt_of_le src cur (by omega)]
      decide
  | succ g ih =>
      intro cur h
      rw [identLoopF]
      cases hc : isAsciiAlphanum (peekAt src cur) with
      | false =>
          simp only [hc, Bool.false_eq_true, if_false]
          exact ⟨fun i h1 h2 => absurd (lt_of_le_of_lt h1 h2) (lt_irrefl _), trivial⟩
      | true =>
          simp only [hc, if_true]
          rcases ih (cur + 1) (by omega) with ⟨ih1, ih2⟩
          refine ⟨?_, ih2⟩
          intro i h1 h2
          rcases Nat.eq_or_lt_of_le h1 with rfl | h1'
          · exact hc
          · exact ih1 i h1' h2

theorem commentLoopF_spec (gas : Nat) (src : List Char) :
    ∀ p, p ≤ src.length → src.length ≤ p + gas →
      p ≤ commentLoopF gas src p ∧ commentLoopF gas src p ≤ src.length ∧
      (∀ i, p ≤ i → i < commentLoopF gas src p → peekAt src i ≠ '\n') ∧
      (src.length ≤ commentLoopF gas src p ∨
        peekAt src (commentLoopF gas src p) = '\n') := by
  induction gas with
  | zero =>
      intro p h1 h2
      rw [show commentLoopF 0 src p = p from rfl]
      exact ⟨le_refl _, h1, fun i hi1 hi2 => absurd (lt_of_le_of_lt hi1 hi2)
        (lt_irrefl _), Or.inl (by omega)⟩
  | succ g ih =>
      intro p h1 h2
      rw [commentLoopF]
      by_cases hco : peekAt src p ≠ '\n' ∧ p < src.length
      · rw [if_pos hco]
        rcases ih (p + 1) (by omega) (by omega) with ⟨ih1, ih2, ih3, ih4⟩
        refine ⟨by omega, ih2, ?_, ih4⟩
        intro i hi1 hi2
        rcases Nat.eq_or_lt_of_le hi1 with rfl | hi1'
        · exact hco.1
        · exact ih3 i hi1' hi2
      · rw [if_neg hco]
        rw [not_and_or] at hco
        refine ⟨le_refl _, h1, fun i hi1 hi2 => absurd (lt_of_le_of_lt hi1 hi2)
          (lt_irrefl _), ?_⟩
        rcases hco with hco | hco
        · exact Or.inr (by simpa using hco)
        · exact Or.inl (by omega)

theorem stringLoopF_pos_spec (gas : Nat) (src : List Char) :
    ∀ p l, p ≤ src.length → src.length ≤ p + gas →
      p ≤ (stringLoopF gas src p l).1 ∧ (stringLoopF gas src p l).1 ≤ src.length ∧
      (∀ i, p ≤ i → i < (stringLoopF gas src p l).1 → peekAt src i ≠ '"') ∧
      (src.length ≤ (stringLoopF gas src p l).1 ∨
        peekAt src (stringLoopF gas src p l).1 = '"') := by
  induction gas with
  | zero =>
      intro p l h1 h2
      rw [show stringLoopF 0 src p l = (p, l) from rfl]
      exact ⟨le_refl _, h1, fun i hi1 hi2 => absurd (lt_of_le_of_lt hi1 hi2)
        (lt_irrefl _), Or.inl (by omega)⟩
  | succ g ih =>
      intro p l h1 h2
      rw [stringLoopF]
      by_cases hco : peekAt src p ≠ '"' ∧ p < src.length
      · rw [if_pos hco]
        rcases ih (p + 1) (if peekAt src p = '\n' then l + 1 else l)
          (by omega) (by omega) with ⟨ih1, ih2, ih3, ih4⟩
        refine ⟨by omega, ih2, ?_, ih4⟩
        intro i hi1 hi2
        rcases Nat.eq_or_lt_of_le hi1 with rfl | hi1'
        · exact hco.1
        · exact ih3 i hi1' hi2
      · rw [if_neg hco]
        rw [not_and_or] at hco
        refine ⟨le_refl _, h1, fun i hi1 hi2 => absurd (lt_of_le_of_lt hi1 hi2)
          (lt_irrefl _), ?_⟩
        rcases hco with hco | hco
        · exact Or.inr (by simpa using hco)
        · exact Or.inl (by omega)

/-! ### Agreement lemmas: the scanner reads only the suffix from the cursor,
and two buffers that agree on a region are scanned identically there -/

theorem peekAt_getElem? (src : List Char) (i : Nat) :
    peekAt src i = (src[i]?).getD '\x00' :=
  List.getD_eq_getElem?_getD src i _

theorem peekAt_drop (src : List Char) (c k : Nat) :
    peekAt src (c + k) = peekAt (src.drop c) k := by
  rw [peekAt_getElem?, peekAt_getElem?, List.getElem?_drop]

theorem peekAt_suffix {src1 src2 : List Char} {c1 c2 : Nat}
    (h : src1.drop c1 = src2.drop c2) (k : Nat) :
    peekAt src1 (c1 + k) = peekAt src2 (c2 + k) := by
  rw [peekAt_drop, peekAt_drop, h]

theorem length_sub_of_drop_eq {src1 src2 : List Char} {c1 c2 : Nat}
    (h : src1.drop c1 = src2.drop c2) :
    src1.length - c1 = src2.length - c2 := by
  have := congrArg List.length h
  simpa using this

theorem drop_eq_shift {src1 src2 : List Char} {c1 c2 : Nat}
    (h : src1.drop c1 = src2.drop c2) (d : Nat) :
    src1.drop (c1 + d) = src2.drop (c2 + d) := by
  rw [← List.drop_drop, ← List.drop_drop, h]

theorem sliceSrc_suffix {src1 src2 : List Char} {c1 c2 : Nat}
    (h : src1.drop c1 = src2.drop c2) (a b : Nat) :
    sliceSrc src1 (c1 + a) (c1 + b) = sliceSrc src2 (c2 + a) (c2 + b) := by
  simp only [sliceSrc]
  rw [drop_eq_shift h a,
    show c1 + b - (c1 + a) = b - a from by omega,
    show c2 + b - (c2 + a) = b - a from by omega]

theorem matchChar_suffix {src1 src2 : List Char} {c1 c2 : Nat}
    (h : src1.drop c1 = src2.drop c2) (hc1 : c1 ≤ src1.length)
    (hc2 : c2 ≤ src2.length) (k : Nat) (exp : Char) :
    matchChar src1 (c1 + k) exp = matchChar src2 (c2 + k) exp := by
  have hlen := length_sub_of_drop_eq h
  simp only [matchChar]
  rw [peekAt_suffix h k, decide_eq_decide.mpr (by omega :
    (c1 + k < src1.length) ↔ (c2 + k < src2.length))]

theorem peekAt_append_left (A X : List Char) (i : Nat) (h : i < A.length) :
    peekAt (A ++ X) i = peekAt A i := by
  rw [peekAt_getElem?, peekAt_getElem?, List.getElem?_append_left h]

theorem sliceSrc_prefix_eq (A X : List Char) (a b : Nat) (hb : b ≤ A.length) :
    sliceSrc (A ++ X) a b = sliceSrc A a b := by
  simp only [sliceSrc, List.drop_append_eq_append_drop,
    List.take_append_eq_append_take, List.length_drop]
  rw [show b - a - (A.length - a) = 0 from by omega]
  simp

/-! ### Fuel irrelevance and step lemmas for the loop and its boundary trace -/

theorem scanLoopF_fuel (gas : Nat) (src : List Char) :
    ∀ (gas' : Nat) (s : ScanState), src.length - s.current ≤ gas →
      src.length - s.current ≤ gas' →
      scanLoopF gas src s = scanLoopF gas' src s := by
  induction gas with
  | zero =>
      intro gas' s h h'
      rw [show scanLoopF 0 src s = s from rfl, scanLoopF_stop gas' src s (by omega)]
  | succ g ih =>
      intro gas' s h h'
      by_cases hc : s.current < src.length
      · cases gas' with
        | zero => omega
        | succ g' =>
            rw [scanLoopF, scanLoopF, if_pos hc, if_pos hc]
            have hlt : s.current < (scanToken src { s with start := s.current }).current :=
              scanToken_current_lt src { s with start := s.current }
            exact ih g' _ (by omega) (by omega)
      · rw [scanLoopF_stop _ _ _ (by omega), scanLoopF_stop _ _ _ (by omega)]

theorem scanRun_stop (src : List Char) (s : ScanState) (h : src.length ≤ s.current) :
    scanRun src s = s :=
  scanLoopF_stop _ _ _ h

theorem scanRun_step (src : List Char) (s : ScanState) (h : s.current < src.length) :
    scanRun src s = scanRun src (scanToken src { s with start := s.current }) := by
  have hlt : s.current < (scanToken src { s with start := s.current }).current :=
    scanToken_current_lt src { s with start := s.current }
  simp only [scanRun]
  rw [show src.length - s.current = (src.length - s.current - 1) + 1 from by omega,
    scanLoopF, if_pos h]
  exact scanLoopF_fuel _ src _ _ (by omega) (by omega)

theorem boundariesF_stop (gas : Nat) (src : List Char) (s : ScanState)
    (h : src.length ≤ s.current) : boundariesF gas src s = [s.current] := by
  cases gas with
  | zero => rfl
  | succ g => rw [boundariesF, if_neg (by omega)]

theorem boundariesF_ge (gas : Nat) (src : List Char) :
    ∀ (s : ScanState) (x : Nat), x ∈ boundariesF gas src s → s.current ≤ x := by
  induction gas with
  | zero =>
      intro s x hx
      rw [show boundariesF 0 src s = [s.current] from rfl, List.mem_singleton] at hx
      omega
  | succ g ih =>
      intro s x hx
      rw [boundariesF] at hx
      split at hx
      · rcases List.mem_cons.mp hx with rfl | hx'
        · exact le_refl _
        · have hlt : s.current < (scanToken src { s with start := s.current }).current :=
            scanToken_current_lt src { s with start := s.current }
          have := ih _ x hx'
          omega
      · rw [List.mem_singleton] at hx
        omega

theorem boundariesF_fuel (gas : Nat) (src : List Char) :
    ∀ (gas' : Nat) (s : ScanState), src.length - s.current ≤ gas →
      src.length - s.current ≤ gas' →
      boundariesF gas src s = boundariesF gas' src s := by
  induction gas with
  | zero =>
      intro gas' s h h'
      rw [show boundariesF 0 src s = [s.current] from rfl,
        boundariesF_stop gas' src s (by omega)]
  | succ g ih =>
      intro gas' s h h'
      by_cases hc : s.current < src.length
      · cases gas' with
        | zero => omega
        | succ g' =>
            rw [boundariesF, boundariesF, if_pos hc, if_pos hc]
            have hlt : s.current < (scanToken src { s with start := s.current }).current :=
              scanToken_current_lt src { s with start := s.current }
            rw [ih g' _ (by omega) (by omega)]
      · rw [boundariesF_stop _ _ _ (by omega), boundariesF_stop _ _ _ (by omega)]

theorem bndRun_step (src : List Char) (s : ScanState) (h : s.current < src.length) :
    bndRun src s =
      s.current :: bndRun src (scanToken src { s with start := s.current }) := by
  have hlt : s.current < (scanToken src { s with start := s.current }).current :=
    scanToken_current_lt src { s with start := s.current }
  simp only [bndRun]
  rw [show src.length - s.current = (src.length - s.current - 1) + 1 from by omega,
    boundariesF, if_pos h]
  rw [boundariesF_fuel (src.length - s.current - 1) src
    (src.length - (scanToken src { s with start := s.current }).current)
    (scanToken src { s with start := s.current }) (by omega) (by omega)]

/-! ### Offset simulation: scanning depends only on the buffer suffix at the
cursor (and on the state components other than the two cursors) -/

theorem scanString_offset (src1 src2 : List Char) (c1 c2 : Nat)
    (hdrop : src1.drop c1 = src2.drop c2) (hc1 : c1 < src1.length)
    (hc2 : c2 < src2.length) (t : List Token) (l : Nat) (e : List Diag) :
    ∃ d : Nat, 0 < d ∧ c1 + d ≤ src1.length ∧
      ∃ (t2 : List Token) (l2 : Nat) (e2 : List Diag),
        scanString src1 ⟨t, c1, c1 + 1, l, e⟩ = ⟨t2, c1, c1 + d, l2, e2⟩ ∧
        scanString src2 ⟨t, c2, c2 + 1, l, e⟩ = ⟨t2, c2, c2 + d, l2, e2⟩ := by
  have hlen := length_sub_of_drop_eq hdrop
  have hpk := peekAt_suffix hdrop
  have hsl := sliceSrc_suffix hdrop
  obtain ⟨hq1a, hq1b, hq1c, hq1d⟩ :=
    stringLoopF_pos_spec (src1.length - (c1 + 1)) src1 (c1 + 1) l (by omega) (by omega)
  have hq1e : (stringLoopF (src1.length - (c1 + 1)) src1 (c1 + 1) l).1 =
      c1 + 1 + ((stringLoopF (src1.length - (c1 + 1)) src1 (c1 + 1) l).1 - (c1 + 1)) := by
    omega
  obtain ⟨k, hk⟩ : ∃ k, (stringLoopF (src1.length - (c1 + 1)) src1 (c1 + 1) l).1 =
      c1 + 1 + k := ⟨_, hq1e⟩
  rw [hk] at hq1b hq1c hq1d
  have hall1 : ∀ i, c1 + 1 ≤ i → i < c1 + 1 + k → peekAt src1 i ≠ '"' := hq1c
  have hL1 : stringLoopF (src1.length - (c1 + 1)) src1 (c1 + 1) l =
      (c1 + 1 + k,
       l + (sliceSrc src1 (c1 + 1) (c1 + 1 + k)).countP (fun c => c = '\n')) :=
    stringLoopF_eq src1 k _ (c1 + 1) l hall1 (by omega) hq1d (by omega)
  have hslice : sliceSrc src2 (c2 + 1) (c2 + 1 + k) =
      sliceSrc src1 (c1 + 1) (c1 + 1 + k) := by
    have h0 := hsl 1 (1 + k)
    rw [show c1 + (1 + k) = c1 + 1 + k from by omega,
      show c2 + (1 + k) = c2 + 1 + k from by omega] at h0
    exact h0.symm
  have hL2 : stringLoopF (src2.length - (c2 + 1)) src2 (c2 + 1) l =
      (c2 + 1 + k,
       l + (sliceSrc src1 (c1 + 1) (c1 + 1 + k)).countP (fun c => c = '\n')) := by
    rw [← hslice]
    apply stringLoopF_eq src2 k _ (c2 + 1) l
    · intro i hi1 hi2
      rw [show i = c2 + (i - c2) from by omega, ← hpk (i - c2)]
      exact hall1 (c1 + (i - c2)) (by omega) (by omega)
    · omega
    · rcases hq1d with hs | hs
      · left; omega
      · right
        rw [show c2 + 1 + k = c2 + (1 + k) from by omega, ← hpk (1 + k),
          show c1 + (1 + k) = c1 + 1 + k from by omega]
        exact hs
    · omega
  by_cases hterm : src1.length ≤ c1 + 1 + k
  · refine ⟨1 + k, by omega, by omega, t,
      l + (sliceSrc src1 (c1 + 1) (c1 + 1 + k)).countP (fun c => c = '\n'),
      e ++ [⟨l + (sliceSrc src1 (c1 + 1) (c1 + 1 + k)).countP (fun c => c = '\n'),
        "Unterminated string."⟩], ?_, ?_⟩
    · rw [show c1 + (1 + k) = c1 + 1 + k from by omega]
      simp only [scanString]
      rw [hL1, if_pos (by simpa using hterm)]
    · rw [show c2 + (1 + k) = c2 + 1 + k from by omega]
      simp only [scanString]
      rw [hL2, if_pos (by simp; omega)]
  · refine ⟨1 + k + 1, by omega, by omega,
      t ++ [⟨TokenType.STRING, sliceSrc src1 c1 (c1 + 1 + k + 1),
        Literal.str (sliceSrc src1 (c1 + 1) (c1 + 1 + k)),
        l + (sliceSrc src1 (c1 + 1) (c1 + 1 + k)).countP (fun c => c = '\n')⟩],
      l + (sliceSrc src1 (c1 + 1) (c1 + 1 + k)).countP (fun c => c = '\n'),
      e, ?_, ?_⟩
    · rw [show c1 + (1 + k + 1) = c1 + 1 + k + 1 from by omega]
      simp only [scanString]
      rw [hL1, if_neg (by simp; omega)]
    · rw [show c2 + (1 + k + 1) = c2 + 1 + k + 1 from by omega]
      simp only [scanString]
      rw [hL2, if_neg (by simp; omega)]
      have hlex : sliceSrc src2 c2 (c2 + 1 + k + 1) = sliceSrc src1 c1 (c1 + 1 + k + 1) := by
        have h0 := hsl 0 (1 + k + 1)
        rw [show c1 + (1 + k + 1) = c1 + 1 + k + 1 from by omega,
          show c2 + (1 + k + 1) = c2 + 1 + k + 1 from by omega,
          Nat.add_zero, Nat.add_zero] at h0
        exact h0.symm
      rw [hlex, hslice]

theorem scanNumber_offset (src1 src2 : List Char) (c1 c2 : Nat)
    (hdrop : src1.drop c1 = src2.drop c2) (hc1 : c1 < src1.length)
    (hc2 : c2 < src2.length) (t : List Token) (l : Nat) (e : List Diag) :
    ∃ d : Nat, 0 < d ∧ c1 + d ≤ src1.length ∧
      ∃ t2 : List Token,
        scanNumber src1 ⟨t, c1, c1 + 1, l, e⟩ = ⟨t2, c1, c1 + d, l, e⟩ ∧
        scanNumber src2 ⟨t, c2, c2 + 1, l, e⟩ = ⟨t2, c2, c2 + d, l, e⟩ := by
  have hlen := length_sub_of_drop_eq hdrop
  have hpk := peekAt_suffix hdrop
  have hsl := sliceSrc_suffix hdrop
  obtain ⟨hs1, hs2⟩ := digitsLoopF_spec (src1.length - (c1 + 1)) src1 (c1 + 1) (by omega)
  rw [show digitsLoopF (src1.length - (c1 + 1)) src1 (c1 + 1) =
    digitsEnd src1 (c1 + 1) from rfl] at hs1 hs2
  have hd1le : c1 + 1 ≤ digitsEnd src1 (c1 + 1) := digitsEnd_le _ _
  have hd1ub : digitsEnd src1 (c1 + 1) ≤ src1.length := by
    have := digitsLoopF_le_add (src1.length - (c1 + 1)) src1 (c1 + 1)
    simp only [digitsEnd]
    omega
  obtain ⟨k, hk⟩ : ∃ k, digitsEnd src1 (c1 + 1) = c1 + 1 + k :=
    ⟨digitsEnd src1 (c1 + 1) - (c1 + 1), by omega⟩
  rw [hk] at hs1 hs2 hd1ub
  have hd2 : digitsEnd src2 (c2 + 1) = c2 + 1 + k := by
    simp only [digitsEnd]
    apply digitsLoopF_eq src2 k (src2.length - (c2 + 1)) (c2 + 1)
    · intro i hi1 hi2
      rw [show i = c2 + (i - c2) from by omega, ← hpk (i - c2)]
      exact hs1 (c1 + (i - c2)) (by omega) (by omega)
    · rw [show c2 + 1 + k = c2 + (1 + k) from by omega, ← hpk (1 + k),
        show c1 + (1 + k) = c1 + 1 + k from by omega]
      exact hs2
    · omega
  have hdot : (peekAt src2 (c2 + 1 + k) = '.' ∧
      isAsciiDigit (peekAt src2 (c2 + 1 + k + 1)) = true) ↔
      (peekAt src1 (c1 + 1 + k) = '.' ∧
        isAsciiDigit (peekAt src1 (c1 + 1 + k + 1)) = true) := by
    rw [show c2 + 1 + k = c2 + (1 + k) from by omega, ← hpk (1 + k),
      show c2 + (1 + k) + 1 = c2 + (1 + k + 1) from by omega, ← hpk (1 + k + 1),
      show c1 + (1 + k) = c1 + 1 + k from by omega,
      show c1 + (1 + k + 1) = c1 + 1 + k + 1 from by omega]
  by_cases hcond : peekAt src1 (c1 + 1 + k) = '.' ∧
      isAsciiDigit (peekAt src1 (c1 + 1 + k + 1)) = true
  · have hdotlt : c1 + 1 + k < src1.length := by
      by_contra hge
      rw [peekAt_of_le src1 _ (by omega)] at hcond
      exact absurd hcond.1 (by decide)
    obtain ⟨hf1, hf2⟩ :=
      digitsLoopF_spec (src1.length - (c1 + 1 + k + 1)) src1 (c1 + 1 + k + 1) (by omega)
    rw [show digitsLoopF (src1.length - (c1 + 1 + k + 1)) src1 (c1 + 1 + k + 1) =
      digitsEnd src1 (c1 + 1 + k + 1) from rfl] at hf1 hf2
    have hf1le : c1 + 1 + k + 1 ≤ digitsEnd src1 (c1 + 1 + k + 1) := digitsEnd_le _ _
    have hf1ub : digitsEnd src1 (c1 + 1 + k + 1) ≤ src1.length := by
      have := digitsLoopF_le_add (src1.length - (c1 + 1 + k + 1)) src1 (c1 + 1 + k + 1)
      simp only [digitsEnd]
      omega
    obtain ⟨k2, hk2⟩ : ∃ k2, digitsEnd src1 (c1 + 1 + k + 1) = c1 + 1 + k + 1 + k2 :=
      ⟨digitsEnd src1 (c1 + 1 + k + 1) - (c1 + 1 + k + 1), by omega⟩
    rw [hk2] at hf1 hf2 hf1ub
    have hd2' : digitsEnd src2 (c2 + 1 + k + 1) = c2 + 1 + k + 1 + k2 := by
      simp only [digitsEnd]
      apply digitsLoopF_eq src2 k2 (src2.length - (c2 + 1 + k + 1)) (c2 + 1 + k + 1)
      · intro i hi1 hi2
        rw [show i = c2 + (i - c2) from by omega, ← hpk (i - c2)]
        exact hf1 (c1 + (i - c2)) (by omega) (by omega)
      · rw [show c2 + 1 + k + 1 + k2 = c2 + (1 + k + 1 + k2) from by omega,
          ← hpk (1 + k + 1 + k2),
          show c1 + (1 + k + 1 + k2) = c1 + 1 + k + 1 + k2 from by omega]
        exact hf2
      · omega
    refine ⟨1 + k + 1 + k2, by omega, by omega,
      t ++ [⟨TokenType.NUMBER, sliceSrc src1 c1 (c1 + 1 + k + 1 + k2),
        Literal.num (decimalValue (sliceSrc src1 c1 (c1 + 1 + k + 1 + k2))), l⟩],
      ?_, ?_⟩
    · rw [show c1 + (1 + k + 1 + k2) = c1 + 1 + k + 1 + k2 from by omega]
      simp only [scanNumber]
      rw [hk, if_pos hcond, hk2]
    · rw [show c2 + (1 + k + 1 + k2) = c2 + 1 + k + 1 + k2 from by omega]
      simp only [scanNumber]
      rw [hd2, if_pos (hdot.mpr hcond), hd2']
      have hlex : sliceSrc src2 c2 (c2 + 1 + k + 1 + k2) =
          sliceSrc src1 c1 (c1 + 1 + k + 1 + k2) := by
        have h0 := hsl 0 (1 + k + 1 + k2)
        rw [show c1 + (1 + k + 1 + k2) = c1 + 1 + k + 1 + k2 from by omega,
          show c2 + (1 + k + 1 + k2) = c2 + 1 + k + 1 + k2 from by omega,
          Nat.add_zero, Nat.add_zero] at h0
        exact h0.symm
      rw [hlex]
  · refine ⟨1 + k, by omega, by omega,
      t ++ [⟨TokenType.NUMBER, sliceSrc src1 c1 (c1 + 1 + k),
        Literal.num (decimalValue (sliceSrc src1 c1 (c1 + 1 + k))), l⟩], ?_, ?_⟩
    · rw [show c1 + (1 + k) = c1 + 1 + k from by omega]
      simp only [scanNumber]
      rw [hk, if_neg hcond]
    · rw [show c2 + (1 + k) = c2 + 1 + k from by omega]
      simp only [scanNumber]
      rw [hd2, if_neg (fun hc => hcond (hdot.mp hc))]
      have hlex : sliceSrc src2 c2 (c2 + 1 + k) = sliceSrc src1 c1 (c1 + 1 + k) := by
        have h0 := hsl 0 (1 + k)
        rw [show c1 + (1 + k) = c1 + 1 + k from by omega,
          show c2 + (1 + k) = c2 + 1 + k from by omega,
          Nat.add_zero, Nat.add_zero] at h0
        exact h0.symm
      rw [hlex]

theorem scanIdentifier_offset (src1 src2 : List Char) (c1 c2 : Nat)
    (hdrop : src1.drop c1 = src2.drop c2) (hc1 : c1 < src1.length)
    (hc2 : c2 < src2.length) (t : List Token) (l : Nat) (e : List Diag) :
    ∃ d : Nat, 0 < d ∧ c1 + d ≤ src1.length ∧
      ∃ t2 : List Token,
        scanIdentifier src1 ⟨t, c1, c1 + 1, l, e⟩ = ⟨t2, c1, c1 + d, l, e⟩ ∧
        scanIdentifier src2 ⟨t, c2, c2 + 1, l, e⟩ = ⟨t2, c2, c2 + d, l, e⟩ := by
  have hlen := length_sub_of_drop_eq hdrop
  have hpk := peekAt_suffix hdrop
  have hsl := sliceSrc_suffix hdrop
  obtain ⟨hs1, hs2⟩ := identLoopF_spec (src1.length - (c1 + 1)) src1 (c1 + 1) (by omega)
  rw [show identLoopF (src1.length - (c1 + 1)) src1 (c1 + 1) =
    identEnd src1 (c1 + 1) from rfl] at hs1 hs2
  have hd1le : c1 + 1 ≤ identEnd src1 (c1 + 1) := identEnd_le _ _
  have hd1ub : identEnd src1 (c1 + 1) ≤ src1.length := by
    have := identLoopF_le_add (src1.length - (c1 + 1)) src1 (c1 + 1)
    simp only [identEnd]
    omega
  obtain ⟨k, hk⟩ : ∃ k, identEnd src1 (c1 + 1) = c1 + 1 + k :=
    ⟨identEnd src1 (c1 + 1) - (c1 + 1), by omega⟩
  rw [hk] at hs1 hs2 hd1ub
  have hd2 : identEnd src2 (c2 + 1) = c2 + 1 + k := by
    simp only [identEnd]
    apply identLoopF_eq src2 k (src2.length - (c2 + 1)) (c2 + 1)
    · intro i hi1 hi2
      rw [show i = c2 + (i - c2) from by omega, ← hpk (i - c2)]
      exact hs1 (c1 + (i - c2)) (by omega) (by omega)
    · rw [show c2 + 1 + k = c2 + (1 + k) from by omega, ← hpk (1 + k),
        show c1 + (1 + k) = c1 + 1 + k from by omega]
      exact hs2
    · omega
  refine ⟨1 + k, by omega, by omega,
    t ++ [⟨(keywordType (sliceSrc src1 c1 (c1 + 1 + k))).getD TokenType.IDENTIFIER,
      sliceSrc src1 c1 (c1 + 1 + k), Literal.null, l⟩], ?_, ?_⟩
  · rw [show c1 + (1 + k) = c1 + 1 + k from by omega]
    simp only [scanIdentifier]
    rw [hk]
  · rw [show c2 + (1 + k) = c2 + 1 + k from by omega]
    simp only [scanIdentifier]
    rw [hd2]
    have hlex : sliceSrc src2 c2 (c2 + 1 + k) = sliceSrc src1 c1 (c1 + 1 + k) := by
      have h0 := hsl 0 (1 + k)
      rw [show c1 + (1 + k) = c1 + 1 + k from by omega,
        show c2 + (1 + k) = c2 + 1 + k from by omega,
        Nat.add_zero, Nat.add_zero] at h0
      exact h0.symm
    rw [hlex]

theorem scanToken_offset (src1 src2 : List Char) (c1 c2 : Nat)
    (hdrop : src1.drop c1 = src2.drop c2) (hc1 : c1 < src1.length)
    (hc2 : c2 < src2.length) (t : List Token) (l : Nat) (e : List Diag) :
    ∃ d : Nat, 0 < d ∧ c1 + d ≤ src1.length ∧
      ∃ (t2 : List Token) (l2 : Nat) (e2 : List Diag),
        scanToken src1 ⟨t, c1, c1, l, e⟩ = ⟨t2, c1, c1 + d, l2, e2⟩ ∧
        scanToken src2 ⟨t, c2, c2, l, e⟩ = ⟨t2, c2, c2 + d, l2, e2⟩ := by
  have hlen := length_sub_of_drop_eq hdrop
  have hpk := peekAt_suffix hdrop
  have hpk0 : peekAt src2 c2 = peekAt src1 c1 := by
    have h0 := hpk 0
    rw [Nat.add_zero, Nat.add_zero] at h0
    exact h0.symm
  have hsl := sliceSrc_suffix hdrop
  have hlex1 : sliceSrc src2 c2 (c2 + 1) = sliceSrc src1 c1 (c1 + 1) := by
    have h0 := hsl 0 1
    rw [Nat.add_zero, Nat.add_zero] at h0
    exact h0.symm
  have hlex2 : sliceSrc src2 c2 (c2 + 2) = sliceSrc src1 c1 (c1 + 2) := by
    have h0 := hsl 0 2
    rw [Nat.add_zero, Nat.add_zero] at h0
    exact h0.symm
  rcases hsc : singleCharToken (peekAt src1 c1) with _ | tt
  · rcases hop : opTokens (peekAt src1 c1) with _ | op
    · by_cases hslash : peekAt src1 c1 = '/'
      · have hslash2 : peekAt src2 c2 = '/' := by rw [hpk0]; exact hslash
        have h1 : scanToken src1 ⟨t, c1, c1, l, e⟩ =
            (if matchChar src1 (c1 + 1) '/' = true then
              ⟨t, c1, commentEnd src1 (c1 + 2), l, e⟩
            else ⟨t ++ [⟨TokenType.SLASH, sliceSrc src1 c1 (c1 + 1), Literal.null, l⟩],
              c1, c1 + 1, l, e⟩ : ScanState) :=
          scanToken_eq_slash src1 ⟨t, c1, c1, l, e⟩ hslash
        have h2 : scanToken src2 ⟨t, c2, c2, l, e⟩ =
            (if matchChar src2 (c2 + 1) '/' = true then
              ⟨t, c2, commentEnd src2 (c2 + 2), l, e⟩
            else ⟨t ++ [⟨TokenType.SLASH, sliceSrc src2 c2 (c2 + 1), Literal.null, l⟩],
              c2, c2 + 1, l, e⟩ : ScanState) :=
          scanToken_eq_slash src2 ⟨t, c2, c2, l, e⟩ hslash2
        have hmm : matchChar src2 (c2 + 1) '/' = matchChar src1 (c1 + 1) '/' :=
          (matchChar_suffix hdrop (by omega) (by omega) 1 '/').symm
        by_cases hmatch : matchChar src1 (c1 + 1) '/' = true
        · have hb : c1 + 1 < src1.length := by
            have hm2 := hmatch
            simp only [matchChar, Bool.and_eq_true, decide_eq_true_eq] at hm2
            exact hm2.1
          obtain ⟨hca, hcb, hcc, hcd⟩ :=
            commentLoopF_spec (src1.length - (c1 + 2)) src1 (c1 + 2) (by omega) (by omega)
          rw [show commentLoopF (src1.length - (c1 + 2)) src1 (c1 + 2) =
            commentEnd src1 (c1 + 2) from rfl] at hca hcb hcc hcd
          obtain ⟨k, hk⟩ : ∃ k, commentEnd src1 (c1 + 2) = c1 + 2 + k :=
            ⟨commentEnd src1 (c1 + 2) - (c1 + 2), by omega⟩
          rw [hk] at hca hcb hcc hcd
          have hce2 : commentEnd src2 (c2 + 2) = c2 + 2 + k := by
            simp only [commentEnd]
            apply commentLoopF_eq src2 k (src2.length - (c2 + 2)) (c2 + 2)
            · intro i hi1 hi2
              rw [show i = c2 + (i - c2) from by omega, ← hpk (i - c2)]
              exact hcc (c1 + (i - c2)) (by omega) (by omega)
            · omega
            · rcases hcd with hs | hs
              · left; omega
              · right
                rw [show c2 + 2 + k = c2 + (2 + k) from by omega, ← hpk (2 + k),
                  show c1 + (2 + k) = c1 + 2 + k from by omega]
                exact hs
            · omega
          refine ⟨2 + k, by omega, by omega, t, l, e, ?_, ?_⟩
          · rw [h1, if_pos hmatch, hk, show c1 + (2 + k) = c1 + 2 + k from by omega]
          · rw [h2, if_pos (by rw [hmm]; exact hmatch), hce2,
              show c2 + (2 + k) = c2 + 2 + k from by omega]
        · refine ⟨1, by omega, by omega,
            t ++ [⟨TokenType.SLASH, sliceSrc src1 c1 (c1 + 1), Literal.null, l⟩],
            l, e, ?_, ?_⟩
          · rw [h1, if_neg hmatch]
          · rw [h2, if_neg (by rw [hmm]; exact hmatch), hlex1]
      · by_cases hws : peekAt src1 c1 = ' ' ∨ peekAt src1 c1 = '\r' ∨
            peekAt src1 c1 = '\t'
        · have hws2 : peekAt src2 c2 = ' ' ∨ peekAt src2 c2 = '\r' ∨
              peekAt src2 c2 = '\t' := by rw [hpk0]; exact hws
          refine ⟨1, by omega, by omega, t, l, e, ?_, ?_⟩
          · exact scanToken_eq_ws src1 ⟨t, c1, c1, l, e⟩ hws
          · exact scanToken_eq_ws src2 ⟨t, c2, c2, l, e⟩ hws2
        · by_cases hnl : peekAt src1 c1 = '\n'
          · have hnl2 : peekAt src2 c2 = '\n' := by rw [hpk0]; exact hnl
            refine ⟨1, by omega, by omega, t, l + 1, e, ?_, ?_⟩
            · exact scanToken_eq_newline src1 ⟨t, c1, c1, l, e⟩ hnl
            · exact scanToken_eq_newline src2 ⟨t, c2, c2, l, e⟩ hnl2
          · by_cases hq : peekAt src1 c1 = '"'
            · have hq2 : peekAt src2 c2 = '"' := by rw [hpk0]; exact hq
              have h1 : scanToken src1 ⟨t, c1, c1, l, e⟩ =
                  scanString src1 ⟨t, c1, c1 + 1, l, e⟩ :=
                scanToken_eq_quote src1 ⟨t, c1, c1, l, e⟩ hq
              have h2 : scanToken src2 ⟨t, c2, c2, l, e⟩ =
                  scanString src2 ⟨t, c2, c2 + 1, l, e⟩ :=
                scanToken_eq_quote src2 ⟨t, c2, c2, l, e⟩ hq2
              obtain ⟨d, hd0, hdle, t2, l2, e2, hS1, hS2⟩ :=
                scanString_offset src1 src2 c1 c2 hdrop hc1 hc2 t l e
              exact ⟨d, hd0, hdle, t2, l2, e2, by rw [h1, hS1], by rw [h2, hS2]⟩
            · by_cases hdg : isAsciiDigit (peekAt src1 c1) = true
              · have hdg2 : isAsciiDigit (peekAt src2 c2) = true := by
                  rw [hpk0]; exact hdg
                have h1 : scanToken src1 ⟨t, c1, c1, l, e⟩ =
                    scanNumber src1 ⟨t, c1, c1 + 1, l, e⟩ :=
                  scanToken_eq_digit src1 ⟨t, c1, c1, l, e⟩ hdg
                have h2 : scanToken src2 ⟨t, c2, c2, l, e⟩ =
                    scanNumber src2 ⟨t, c2, c2 + 1, l, e⟩ :=
                  scanToken_eq_digit src2 ⟨t, c2, c2, l, e⟩ hdg2
                obtain ⟨d, hd0, hdle, t2, hS1, hS2⟩ :=
                  scanNumber_offset src1 src2 c1 c2 hdrop hc1 hc2 t l e
                exact ⟨d, hd0, hdle, t2, l, e, by rw [h1, hS1], by rw [h2, hS2]⟩
              · have hdg' : isAsciiDigit (peekAt src1 c1) = false :=
                  Bool.eq_false_iff.mpr hdg
                by_cases hal : isAsciiAlpha (peekAt src1 c1) = true
                · have hal2 : isAsciiAlpha (peekAt src2 c2) = true := by
                    rw [hpk0]; exact hal
                  have hdg2' : isAsciiDigit (peekAt src2 c2) = false := by
                    rw [hpk0]; exact hdg'
                  have h1 : scanToken src1 ⟨t, c1, c1, l, e⟩ =
                      scanIdentifier src1 ⟨t, c1, c1 + 1, l, e⟩ :=
                    scanToken_eq_alpha src1 ⟨t, c1, c1, l, e⟩ hal hdg'
                  have h2 : scanToken src2 ⟨t, c2, c2, l, e⟩ =
                      scanIdentifier src2 ⟨t, c2, c2 + 1, l, e⟩ :=
                    scanToken_eq_alpha src2 ⟨t, c2, c2, l, e⟩ hal2 hdg2'
                  obtain ⟨d, hd0, hdle, t2, hS1, hS2⟩ :=
                    scanIdentifier_offset src1 src2 c1 c2 hdrop hc1 hc2 t l e
                  exact ⟨d, hd0, hdle, t2, l, e, by rw [h1, hS1], by rw [h2, hS2]⟩
                · have hal' : isAsciiAlpha (peekAt src1 c1) = false :=
                    Bool.eq_false_iff.mpr hal
                  refine ⟨1, by omega, by omega, t, l,
                    e ++ [⟨l, "Unexpected character"⟩], ?_, ?_⟩
                  · exact scanToken_eq_other src1 ⟨t, c1, c1, l, e⟩ hsc hop
                      hslash hws hnl hq hdg' hal'
                  · exact scanToken_eq_other src2 ⟨t, c2, c2, l, e⟩
                      (by rw [hpk0]; exact hsc) (by rw [hpk0]; exact hop)
                      (by rw [hpk0]; exact hslash) (by rw [hpk0]; exact hws)
                      (by rw [hpk0]; exact hnl) (by rw [hpk0]; exact hq)
                      (by rw [hpk0]; exact hdg') (by rw [hpk0]; exact hal')
    · have hsc2 : singleCharToken (peekAt src2 c2) = none := by rw [hpk0]; exact hsc
      have hop2 : opTokens (peekAt src2 c2) = some op := by rw [hpk0]; exact hop
      have h1 : scanToken src1 ⟨t, c1, c1, l, e⟩ =
          (if matchChar src1 (c1 + 1) '=' = true then
            ⟨t ++ [⟨op.withEqual, sliceSrc src1 c1 (c1 + 2), Literal.null, l⟩],
              c1, c1 + 2, l, e⟩
          else ⟨t ++ [⟨op.single, sliceSrc src1 c1 (c1 + 1), Literal.null, l⟩],
            c1, c1 + 1, l, e⟩ : ScanState) :=
        scanToken_eq_op src1 ⟨t, c1, c1, l, e⟩ op hsc hop
      have h2 : scanToken src2 ⟨t, c2, c2, l, e⟩ =
          (if matchChar src2 (c2 + 1) '=' = true then
            ⟨t ++ [⟨op.withEqual, sliceSrc src2 c2 (c2 + 2), Literal.null, l⟩],
              c2, c2 + 2, l, e⟩
          else ⟨t ++ [⟨op.single, sliceSrc src2 c2 (c2 + 1), Literal.null, l⟩],
            c2, c2 + 1, l, e⟩ : ScanState) :=
        scanToken_eq_op src2 ⟨t, c2, c2, l, e⟩ op hsc2 hop2
      have hmm : matchChar src2 (c2 + 1) '=' = matchChar src1 (c1 + 1) '=' :=
        (matchChar_suffix hdrop (by omega) (by omega) 1 '=').symm
      by_cases hmatch : matchChar src1 (c1 + 1) '=' = true
      · have hb : c1 + 1 < src1.length := by
          have hm2 := hmatch
          simp only [matchChar, Bool.and_eq_true, decide_eq_true_eq] at hm2
          exact hm2.1
        refine ⟨2, by omega, by omega,
          t ++ [⟨op.withEqual, sliceSrc src1 c1 (c1 + 2), Literal.null, l⟩], l, e, ?_, ?_⟩
        · rw [h1, if_pos hmatch]
        · rw [h2, if_pos (by rw [hmm]; exact hmatch), hlex2]
      · refine ⟨1, by omega, by omega,
          t ++ [⟨op.single, sliceSrc src1 c1 (c1 + 1), Literal.null, l⟩], l, e, ?_, ?_⟩
        · rw [h1, if_neg hmatch]
        · rw [h2, if_neg (by rw [hmm]; exact hmatch), hlex1]
  · have hsc2 : singleCharToken (peekAt src2 c2) = some tt := by rw [hpk0]; exact hsc
    refine ⟨1, by omega, by omega,
      t ++ [⟨tt, sliceSrc src1 c1 (c1 + 1), Literal.null, l⟩], l, e, ?_, ?_⟩
    · exact scanToken_eq_single src1 ⟨t, c1, c1, l, e⟩ tt hsc
    · have h2 : scanToken src2 ⟨t, c2, c2, l, e⟩ =
          ⟨t ++ [⟨tt, sliceSrc src2 c2 (c2 + 1), Literal.null, l⟩], c2, c2 + 1, l, e⟩ :=
        scanToken_eq_single src2 ⟨t, c2, c2, l, e⟩ tt hsc2
      rw [h2, hlex1]

/-- Full-scan offset simulation: scans of two buffers that agree from the
respective cursors onward produce the same tokens, final line, and
diagnostics (the lexeme-start fields are irrelevant, as the loop overwrites
them at each iteration). -/
theorem sim_offset (fuel : Nat) :
    ∀ (src1 src2 : List Char) (c1 c2 : Nat),
      src1.drop c1 = src2.drop c2 → c1 ≤ src1.length → c2 ≤ src2.length →
      src1.length - c1 ≤ fuel →
      ∀ (t : List Token) (st1 st2 l : Nat) (e : List Diag),
        (scanRun src1 ⟨t, st1, c1, l, e⟩).tokens =
            (scanRun src2 ⟨t, st2, c2, l, e⟩).tokens ∧
        (scanRun src1 ⟨t, st1, c1, l, e⟩).line =
            (scanRun src2 ⟨t, st2, c2, l, e⟩).line ∧
        (scanRun src1 ⟨t, st1, c1, l, e⟩).errors =
            (scanRun src2 ⟨t, st2, c2, l, e⟩).errors := by
  induction fuel with
  | zero =>
      intro src1 src2 c1 c2 hdrop hc1 hc2 hfuel t st1 st2 l e
      have hlen := length_sub_of_drop_eq hdrop
      rw [scanRun_stop src1 ⟨t, st1, c1, l, e⟩ (by omega : src1.length ≤ c1),
        scanRun_stop src2 ⟨t, st2, c2, l, e⟩ (by omega : src2.length ≤ c2)]
      exact ⟨rfl, rfl, rfl⟩
  | succ f ih =>
      intro src1 src2 c1 c2 hdrop hc1 hc2 hfuel t st1 st2 l e
      have hlen := length_sub_of_drop_eq hdrop
      by_cases hc : c1 < src1.length
      · have hc2' : c2 < src2.length := by omega
        obtain ⟨d, hd0, hdle, t2, l2, e2, h1, h2⟩ :=
          scanToken_offset src1 src2 c1 c2 hdrop hc hc2' t l e
        have hstep1 : scanRun src1 ⟨t, st1, c1, l, e⟩ =
            scanRun src1 (scanToken src1 ⟨t, c1, c1, l, e⟩) :=
          scanRun_step src1 ⟨t, st1, c1, l, e⟩ hc
        have hstep2 : scanRun src2 ⟨t, st2, c2, l, e⟩ =
            scanRun src2 (scanToken src2 ⟨t, c2, c2, l, e⟩) :=
          scanRun_step src2 ⟨t, st2, c2, l, e⟩ hc2'
        rw [hstep1, hstep2, h1, h2]
        exact ih src1 src2 (c1 + d) (c2 + d) (drop_eq_shift hdrop d) hdle
          (by omega) (by omega) t2 c1 c2 l2 e2
      · rw [scanRun_stop src1 ⟨t, st1, c1, l, e⟩ (by omega : src1.length ≤ c1),
          scanRun_stop src2 ⟨t, st2, c2, l, e⟩ (by omega : src2.length ≤ c2)]
        exact ⟨rfl, rfl, rfl⟩

/-! ### Prefix agreement: scans of `A ++ B` and `A ++ (ws ++ B)` move in
lockstep while the cursor is inside `A` and the current lexeme does not
reach past the end of `A` -/

theorem peekAt_prefix_agree (A X Y : List Char) (i : Nat) (h : i < A.length) :
    peekAt (A ++ X) i = peekAt (A ++ Y) i := by
  rw [peekAt_getElem?, peekAt_getElem?, List.getElem?_append_left h,
    List.getElem?_append_left h]

theorem sliceSrc_prefix_agree (A X Y : List Char) (a b : Nat) (hb : b ≤ A.length) :
    sliceSrc (A ++ X) a b = sliceSrc (A ++ Y) a b := by
  rw [sliceSrc_prefix_eq A X a b hb, sliceSrc_prefix_eq A Y a b hb]

theorem matchChar_prefix_agree (A X Y : List Char) (i : Nat) (h : i < A.length)
    (exp : Char) : matchChar (A ++ X) i exp = matchChar (A ++ Y) i exp := by
  simp only [matchChar]
  rw [peekAt_prefix_agree A X Y i h, decide_eq_decide.mpr (by
    simp only [List.length_append]
    omega : (i < (A ++ X).length) ↔ (i < (A ++ Y).length))]

theorem peekAt_after_prefix_eq (A X : List Char) (j : Nat) :
    peekAt (A ++ X) (A.length + j) = peekAt X j := by
  have h := peekAt_drop (A ++ X) A.length j
  rw [List.drop_left] at h
  exact h

theorem peekAt_mem (X : List Char) (j : Nat) (hj : j < X.length) : peekAt X j ∈ X := by
  rw [peekAt_of_lt X j hj]
  exact List.getElem_mem _

theorem sliceSrc_split (src : List Char) (a b c : Nat) (hab : a ≤ b) (hbc : b ≤ c) :
    sliceSrc src a c = sliceSrc src a b ++ sliceSrc src b c := by
  simp only [sliceSrc]
  rw [show c - a = (b - a) + (c - b) from by omega, List.take_add, List.drop_drop,
    show a + (b - a) = b from by omega]

theorem scanString_prefix_agree (A B ws : List Char)
    (hws : ∀ c ∈ ws, c = ' ' ∨ c = '\t') (m : Nat) (t : List Token) (l : Nat)
    (e : List Diag) (hm : m < A.length)
    (hbnd : (scanString (A ++ B) ⟨t, m, m + 1, l, e⟩).current ≤ A.length) :
    scanString (A ++ (ws ++ B)) ⟨t, m, m + 1, l, e⟩ =
        scanString (A ++ B) ⟨t, m, m + 1, l, e⟩ ∨
      (B = [] ∧
       (scanString (A ++ B) ⟨t, m, m + 1, l, e⟩).tokens = t ∧
       (scanString (A ++ (ws ++ B)) ⟨t, m, m + 1, l, e⟩).tokens = t ∧
       (scanString (A ++ B) ⟨t, m, m + 1, l, e⟩).line =
         (scanString (A ++ (ws ++ B)) ⟨t, m, m + 1, l, e⟩).line ∧
       (scanString (A ++ B) ⟨t, m, m + 1, l, e⟩).errors =
         (scanString (A ++ (ws ++ B)) ⟨t, m, m + 1, l, e⟩).errors ∧
       (scanString (A ++ B) ⟨t, m, m + 1, l, e⟩).current = A.length ∧
       (scanString (A ++ (ws ++ B)) ⟨t, m, m + 1, l, e⟩).current =
         A.length + ws.length) := by
  have hlenB : (A ++ B).length = A.length + B.length := List.length_append _ _
  have hlenW : (A ++ (ws ++ B)).length = A.length + (ws.length + B.length) := by
    rw [List.length_append, List.length_append]
  obtain ⟨ha, hb, hcq, hd⟩ := stringLoopF_pos_spec ((A ++ B).length - (m + 1))
    (A ++ B) (m + 1) l (by omega) (by omega)
  obtain ⟨k, hk⟩ : ∃ k, (stringLoopF ((A ++ B).length - (m + 1)) (A ++ B) (m + 1) l).1 =
      m + 1 + k :=
    ⟨(stringLoopF ((A ++ B).length - (m + 1)) (A ++ B) (m + 1) l).1 - (m + 1), by omega⟩
  rw [hk] at hb hcq hd
  have hL1 : stringLoopF ((A ++ B).length - (m + 1)) (A ++ B) (m + 1) l =
      (m + 1 + k,
       l + (sliceSrc (A ++ B) (m + 1) (m + 1 + k)).countP (fun c => c = '\n')) :=
    stringLoopF_eq (A ++ B) k _ (m + 1) l hcq (by omega) hd (by omega)
  by_cases hterm : (A ++ B).length ≤ m + 1 + k
  · -- unterminated over the original buffer: the scan stopped at the end
    have hS1 : scanString (A ++ B) ⟨t, m, m + 1, l, e⟩ =
        ⟨t, m, m + 1 + k,
         l + (sliceSrc (A ++ B) (m + 1) (m + 1 + k)).countP (fun c => c = '\n'),
         e ++ [⟨l + (sliceSrc (A ++ B) (m + 1) (m + 1 + k)).countP (fun c => c = '\n'),
           "Unterminated string."⟩]⟩ := by
      simp only [scanString]
      rw [hL1, if_pos (by simpa using hterm)]
    rw [hS1] at hbnd
    simp only [ScanState.current] at hbnd
    have hqlen : m + 1 + k = (A ++ B).length := by omega
    have hBnil : B = [] := by
      refine List.eq_nil_of_length_eq_zero ?_
      omega
    subst hBnil
    simp only [List.append_nil] at hS1 hL1 hcq hterm hqlen hlenB hlenW hbnd ⊢
    -- over the padded buffer the loop runs to its end, which is
    -- `A.length + ws.length`
    have hL2 : stringLoopF ((A ++ ws).length - (m + 1)) (A ++ ws) (m + 1) l =
        (m + 1 + (A.length + ws.length - (m + 1)),
         l + (sliceSrc (A ++ ws) (m + 1)
           (m + 1 + (A.length + ws.length - (m + 1)))).countP (fun c => c = '\n')) := by
      apply stringLoopF_eq (A ++ ws) _ _ (m + 1) l
      · intro i hi1 hi2
        by_cases hin : i < A.length
        · rw [show (A ++ ws) = A ++ (ws ++ []) from by simp,
            peekAt_prefix_agree A (ws ++ []) [] i hin,
            show A ++ ([] : List Char) = A from by simp]
          exact hcq i hi1 (by omega)
        · rw [show i = A.length + (i - A.length) from by omega,
            peekAt_after_prefix_eq A ws (i - A.length)]
          have hjw : i - A.length < ws.length := by
            omega
          rcases hws _ (peekAt_mem ws (i - A.length) hjw) with hw | hw <;>
            (rw [hw]; decide)
      · rw [List.length_append]
        omega
      · left
        rw [List.length_append]
        omega
      · omega
    have hS2 : scanString (A ++ ws) ⟨t, m, m + 1, l, e⟩ =
        ⟨t, m, m + 1 + (A.length + ws.length - (m + 1)),
         l + (sliceSrc (A ++ ws) (m + 1)
           (m + 1 + (A.length + ws.length - (m + 1)))).countP (fun c => c = '\n'),
         e ++ [⟨l + (sliceSrc (A ++ ws) (m + 1)
           (m + 1 + (A.length + ws.length - (m + 1)))).countP (fun c => c = '\n'),
           "Unterminated string."⟩]⟩ := by
      simp only [scanString]
      rw [hL2, if_pos (by simp only [Prod.fst]; rw [List.length_append]; omega)]
    -- the padded slice is the original slice followed by the whitespace run,
    -- which contains no newline
    have hsplit : sliceSrc (A ++ ws) (m + 1) (m + 1 + (A.length + ws.length - (m + 1))) =
        sliceSrc (A ++ ws) (m + 1) A.length ++ sliceSrc (A ++ ws) A.length
          (m + 1 + (A.length + ws.length - (m + 1))) :=
      sliceSrc_split _ _ _ _ (by omega) (by omega)
    have hws_slice : sliceSrc (A ++ ws) A.length
        (m + 1 + (A.length + ws.length - (m + 1))) = ws := by
      simp only [sliceSrc]
      rw [List.drop_left,
        show m + 1 + (A.length + ws.length - (m + 1)) - A.length = ws.length from by omega,
        List.take_length]
    have hpre_slice : sliceSrc (A ++ ws) (m + 1) A.length =
        sliceSrc A (m + 1) A.length :=
      sliceSrc_prefix_eq A ws (m + 1) A.length (le_refl _)
    have hcount : (sliceSrc (A ++ ws) (m + 1)
        (m + 1 + (A.length + ws.length - (m + 1)))).countP (fun c => c = '\n') =
        (sliceSrc A (m + 1) (m + 1 + k)).countP (fun c => c = '\n') := by
      rw [hsplit, hws_slice, hpre_slice, List.countP_append,
        show m + 1 + k = A.length from by omega]
      have hzero : ws.countP (fun c => c = '\n') = 0 := by
        rw [List.countP_eq_zero]
        intro a hc
        rcases hws a hc with hw | hw <;> (rw [hw]; decide)
      rw [hzero]
      omega
    right
    refine ⟨trivial, by rw [hS1], by rw [hS2], ?_, ?_, by rw [hS1]; simpa using hqlen, ?_⟩
    · rw [hS1, hS2]
      simp only [ScanState.line]
      rw [hcount]
    · rw [hS1, hS2]
      simp only [ScanState.errors]
      rw [hcount]
    · rw [hS2]
      simp only [ScanState.current]
      omega
  · -- terminated: the closing quote lies inside `A`
    have hS1 : scanString (A ++ B) ⟨t, m, m + 1, l, e⟩ =
        ⟨t ++ [⟨TokenType.STRING, sliceSrc (A ++ B) m (m + 1 + k + 1),
          Literal.str (sliceSrc (A ++ B) (m + 1) (m + 1 + k)),
          l + (sliceSrc (A ++ B) (m + 1) (m + 1 + k)).countP (fun c => c = '\n')⟩],
         m, m + 1 + k + 1,
         l + (sliceSrc (A ++ B) (m + 1) (m + 1 + k)).countP (fun c => c = '\n'), e⟩ := by
      simp only [scanString]
      rw [hL1, if_neg (by simpa using hterm)]
    rw [hS1] at hbnd
    simp only [ScanState.current] at hbnd
    have hq : peekAt (A ++ B) (m + 1 + k) = '"' := by
      rcases hd with hd | hd
      · omega
      · exact hd
    have hL2 : stringLoopF ((A ++ (ws ++ B)).length - (m + 1)) (A ++ (ws ++ B))
        (m + 1) l =
        (m + 1 + k,
         l + (sliceSrc (A ++ (ws ++ B)) (m + 1) (m + 1 + k)).countP
           (fun c => c = '\n')) := by
      apply stringLoopF_eq (A ++ (ws ++ B)) k _ (m + 1) l
      · intro i hi1 hi2
        rw [peekAt_prefix_agree A (ws ++ B) B i (by omega)]
        exact hcq i hi1 hi2
      · omega
      · right
        rw [peekAt_prefix_agree A (ws ++ B) B (m + 1 + k) (by omega)]
        exact hq
      · omega
    have hS2 : scanString (A ++ (ws ++ B)) ⟨t, m, m + 1, l, e⟩ =
        ⟨t ++ [⟨TokenType.STRING, sliceSrc (A ++ (ws ++ B)) m (m + 1 + k + 1),
          Literal.str (sliceSrc (A ++ (ws ++ B)) (m + 1) (m + 1 + k)),
          l + (sliceSrc (A ++ (ws ++ B)) (m + 1) (m + 1 + k)).countP
            (fun c => c = '\n')⟩],
         m, m + 1 + k + 1,
         l + (sliceSrc (A ++ (ws ++ B)) (m + 1) (m + 1 + k)).countP
           (fun c => c = '\n'), e⟩ := by
      simp only [scanString]
      rw [hL2, if_neg (by simp only [Prod.fst]; omega)]
    left
    rw [hS1, hS2,
      sliceSrc_prefix_agree A (ws ++ B) B m (m + 1 + k + 1) (by omega),
      sliceSrc_prefix_agree A (ws ++ B) B (m + 1) (m + 1 + k) (by omega)]

theorem peekAt_pad_ws (A B ws : List Char) (hws : ∀ c ∈ ws, c = ' ' ∨ c = '\t')
    (j : Nat) (hj : j < ws.length) :
    peekAt (A ++ (ws ++ B)) (A.length + j) = ' ' ∨
      peekAt (A ++ (ws ++ B)) (A.length + j) = '\t' := by
  rw [peekAt_after_prefix_eq A (ws ++ B) j, peekAt_append_left ws B j hj]
  exact hws _ (peekAt_mem ws j hj)

theorem peekAt_pad_ws0 (A B ws : List Char) (hws : ∀ c ∈ ws, c = ' ' ∨ c = '\t')
    (hne : ws ≠ []) :
    peekAt (A ++ (ws ++ B)) A.length = ' ' ∨
      peekAt (A ++ (ws ++ B)) A.length = '\t' := by
  have h0 := peekAt_pad_ws A B ws hws 0 (List.length_pos.mpr hne)
  simpa using h0

theorem pad_head_ne (A B ws : List Char) (hws : ∀ c ∈ ws, c = ' ' ∨ c = '\t')
    (hne : ws ≠ []) (d : Char) (hd1 : d ≠ ' ') (hd2 : d ≠ '\t') :
    peekAt (A ++ (ws ++ B)) A.length ≠ d := by
  rcases peekAt_pad_ws0 A B ws hws hne with h | h <;> rw [h]
  · exact fun hc => hd1 hc.symm
  · exact fun hc => hd2 hc.symm

theorem pad_head_not_digit (A B ws : List Char) (hws : ∀ c ∈ ws, c = ' ' ∨ c = '\t')
    (hne : ws ≠ []) :
    isAsciiDigit (peekAt (A ++ (ws ++ B)) A.length) = false := by
  rcases peekAt_pad_ws0 A B ws hws hne with h | h <;> (rw [h]; decide)

theorem pad_head_not_alphanum (A B ws : List Char) (hws : ∀ c ∈ ws, c = ' ' ∨ c = '\t')
    (hne : ws ≠ []) :
    isAsciiAlphanum (peekAt (A ++ (ws ++ B)) A.length) = false := by
  rcases peekAt_pad_ws0 A B ws hws hne with h | h <;> (rw [h]; decide)

theorem pad_matchChar_false (A B ws : List Char) (hws : ∀ c ∈ ws, c = ' ' ∨ c = '\t')
    (hne : ws ≠ []) (d : Char) (hd1 : d ≠ ' ') (hd2 : d ≠ '\t') :
    matchChar (A ++ (ws ++ B)) A.length d = false := by
  have h := pad_head_ne A B ws hws hne d hd1 hd2
  cases hb : (peekAt (A ++ (ws ++ B)) A.length == d) with
  | true => exact absurd (eq_of_beq hb) h
  | false => simp [matchChar, hb]

theorem peekAt_pad_after (A B ws : List Char) (j : Nat) :
    peekAt (A ++ (ws ++ B)) (A.length + ws.length + j) = peekAt B j := by
  rw [show A.length + ws.length + j = A.length + (ws.length + j) from by omega,
    peekAt_after_prefix_eq A (ws ++ B) (ws.length + j), peekAt_after_prefix_eq ws B j]

theorem drop_pad (A B ws : List Char) :
    (A ++ (ws ++ B)).drop (A.length + ws.length) = B := by
  rw [show A ++ (ws ++ B) = (A ++ ws) ++ B from (List.append_assoc A ws B).symm,
    show A.length + ws.length = (A ++ ws).length from (List.length_append A ws).symm,
    List.drop_left]

theorem scanNumber_prefix_agree (A B ws : List Char)
    (hws : ∀ c ∈ ws, c = ' ' ∨ c = '\t') (hne : ws ≠ [])
    (m : Nat) (t : List Token) (l : Nat) (e : List Diag) (hm : m < A.length)
    (hbnd : (scanNumber (A ++ B) ⟨t, m, m + 1, l, e⟩).current ≤ A.length) :
    scanNumber (A ++ (ws ++ B)) ⟨t, m, m + 1, l, e⟩ =
      scanNumber (A ++ B) ⟨t, m, m + 1, l, e⟩ := by
  have hlen1 : (A ++ B).length = A.length + B.length := List.length_append _ _
  have hlen2 : (A ++ (ws ++ B)).length = A.length + (ws.length + B.length) := by
    rw [List.length_append, List.length_append]
  obtain ⟨hs1, hs2⟩ :=
    digitsLoopF_spec ((A ++ B).length - (m + 1)) (A ++ B) (m + 1) (by omega)
  rw [show digitsLoopF ((A ++ B).length - (m + 1)) (A ++ B) (m + 1) =
    digitsEnd (A ++ B) (m + 1) from rfl] at hs1 hs2
  have hd1le : m + 1 ≤ digitsEnd (A ++ B) (m + 1) := digitsEnd_le _ _
  obtain ⟨k, hk⟩ : ∃ k, digitsEnd (A ++ B) (m + 1) = m + 1 + k :=
    ⟨digitsEnd (A ++ B) (m + 1) - (m + 1), by omega⟩
  rw [hk] at hs1 hs2
  by_cases hcond : peekAt (A ++ B) (m + 1 + k) = '.' ∧
      isAsciiDigit (peekAt (A ++ B) (m + 1 + k + 1)) = true
  · obtain ⟨hf1, hf2⟩ := digitsLoopF_spec ((A ++ B).length - (m + 1 + k + 1)) (A ++ B)
      (m + 1 + k + 1) (by omega)
    rw [show digitsLoopF ((A ++ B).length - (m + 1 + k + 1)) (A ++ B) (m + 1 + k + 1) =
      digitsEnd (A ++ B) (m + 1 + k + 1) from rfl] at hf1 hf2
    have hf1le : m + 1 + k + 1 ≤ digitsEnd (A ++ B) (m + 1 + k + 1) := digitsEnd_le _ _
    obtain ⟨k2, hk2⟩ : ∃ k2, digitsEnd (A ++ B) (m + 1 + k + 1) = m + 1 + k + 1 + k2 :=
      ⟨digitsEnd (A ++ B) (m + 1 + k + 1) - (m + 1 + k + 1), by omega⟩
    rw [hk2] at hf1 hf2
    have hS1 : scanNumber (A ++ B) ⟨t, m, m + 1, l, e⟩ =
        ⟨t ++ [⟨TokenType.NUMBER, sliceSrc (A ++ B) m (m + 1 + k + 1 + k2),
          Literal.num (decimalValue (sliceSrc (A ++ B) m (m + 1 + k + 1 + k2))), l⟩],
         m, m + 1 + k + 1 + k2, l, e⟩ := by
      simp only [scanNumber]
      rw [hk, if_pos hcond, hk2]
    rw [hS1] at hbnd
    have hble : m + 1 + k + 1 + k2 ≤ A.length := hbnd
    have hk2pos : 0 < k2 := by
      rcases Nat.eq_zero_or_pos k2 with h0 | h0
      · subst h0
        rw [Nat.add_zero] at hf2
        rw [hcond.2] at hf2
        exact absurd hf2 (by decide)
      · exact h0
    have hd2 : digitsEnd (A ++ (ws ++ B)) (m + 1) = m + 1 + k := by
      simp only [digitsEnd]
      apply digitsLoopF_eq (A ++ (ws ++ B)) k ((A ++ (ws ++ B)).length - (m + 1)) (m + 1)
      · intro i hi1 hi2
        rw [← peekAt_prefix_agree A B (ws ++ B) i (by omega)]
        exact hs1 i hi1 hi2
      · rw [← peekAt_prefix_agree A B (ws ++ B) (m + 1 + k) (by omega)]
        exact hs2
      · omega
    have hcond' : peekAt (A ++ (ws ++ B)) (m + 1 + k) = '.' ∧
        isAsciiDigit (peekAt (A ++ (ws ++ B)) (m + 1 + k + 1)) = true := by
      constructor
      · rw [← peekAt_prefix_agree A B (ws ++ B) (m + 1 + k) (by omega)]
        exact hcond.1
      · rw [← peekAt_prefix_agree A B (ws ++ B) (m + 1 + k + 1) (by omega)]
        exact hcond.2
    have hd2' : digitsEnd (A ++ (ws ++ B)) (m + 1 + k + 1) = m + 1 + k + 1 + k2 := by
      simp only [digitsEnd]
      apply digitsLoopF_eq (A ++ (ws ++ B)) k2
        ((A ++ (ws ++ B)).length - (m + 1 + k + 1)) (m + 1 + k + 1)
      · intro i hi1 hi2
        rw [← peekAt_prefix_agree A B (ws ++ B) i (by omega)]
        exact hf1 i hi1 hi2
      · by_cases hend : m + 1 + k + 1 + k2 < A.length
        · rw [← peekAt_prefix_agree A B (ws ++ B) _ hend]
          exact hf2
        · have heq : m + 1 + k + 1 + k2 = A.length := by omega
          rw [heq]
          exact pad_head_not_digit A B ws hws hne
      · omega
    have hS2 : scanNumber (A ++ (ws ++ B)) ⟨t, m, m + 1, l, e⟩ =
        ⟨t ++ [⟨TokenType.NUMBER, sliceSrc (A ++ (ws ++ B)) m (m + 1 + k + 1 + k2),
          Literal.num (decimalValue (sliceSrc (A ++ (ws ++ B)) m (m + 1 + k + 1 + k2))), l⟩],
         m, m + 1 + k + 1 + k2, l, e⟩ := by
      simp only [scanNumber]
      rw [hd2, if_pos hcond', hd2']
    rw [hS1, hS2, sliceSrc_prefix_agree A (ws ++ B) B m (m + 1 + k + 1 + k2) hble]
  · have hS1 : scanNumber (A ++ B) ⟨t, m, m + 1, l, e⟩ =
        ⟨t ++ [⟨TokenType.NUMBER, sliceSrc (A ++ B) m (m + 1 + k),
          Literal.num (decimalValue (sliceSrc (A ++ B) m (m + 1 + k))), l⟩],
         m, m + 1 + k, l, e⟩ := by
      simp only [scanNumber]
      rw [hk, if_neg hcond]
    rw [hS1] at hbnd
    have hble : m + 1 + k ≤ A.length := hbnd
    have hd2 : digitsEnd (A ++ (ws ++ B)) (m + 1) = m + 1 + k := by
      simp only [digitsEnd]
      apply digitsLoopF_eq (A ++ (ws ++ B)) k ((A ++ (ws ++ B)).length - (m + 1)) (m + 1)
      · intro i hi1 hi2
        rw [← peekAt_prefix_agree A B (ws ++ B) i (by omega)]
        exact hs1 i hi1 hi2
      · by_cases hend : m + 1 + k < A.length
        · rw [← peekAt_prefix_agree A B (ws ++ B) _ hend]
          exact hs2
        · have heq : m + 1 + k = A.length := by omega
          rw [heq]
          exact pad_head_not_digit A B ws hws hne
      · omega
    have hcond' : ¬(peekAt (A ++ (ws ++ B)) (m + 1 + k) = '.' ∧
        isAsciiDigit (peekAt (A ++ (ws ++ B)) (m + 1 + k + 1)) = true) := by
      intro hc
      by_cases hend : m + 1 + k < A.length
      · have hdot : peekAt (A ++ B) (m + 1 + k) = '.' := by
          rw [peekAt_prefix_agree A B (ws ++ B) _ hend]
          exact hc.1
        by_cases hend2 : m + 1 + k + 1 < A.length
        · have hdig : isAsciiDigit (peekAt (A ++ B) (m + 1 + k + 1)) = true := by
            rw [peekAt_prefix_agree A B (ws ++ B) _ hend2]
            exact hc.2
          exact hcond ⟨hdot, hdig⟩
        · have heq : m + 1 + k + 1 = A.length := by omega
          have hnd := pad_head_not_digit A B ws hws hne
          rw [← heq] at hnd
          rw [hc.2] at hnd
          exact absurd hnd (by decide)
      · have heq : m + 1 + k = A.length := by omega
        have hnd := pad_head_ne A B ws hws hne '.' (by decide) (by decide)
        rw [← heq] at hnd
        exact hnd hc.1
    have hS2 : scanNumber (A ++ (ws ++ B)) ⟨t, m, m + 1, l, e⟩ =
        ⟨t ++ [⟨TokenType.NUMBER, sliceSrc (A ++ (ws ++ B)) m (m + 1 + k),
          Literal.num (decimalValue (sliceSrc (A ++ (ws ++ B)) m (m + 1 + k))), l⟩],
         m, m + 1 + k, l, e⟩ := by
      simp only [scanNumber]
      rw [hd2, if_neg hcond']
    rw [hS1, hS2, sliceSrc_prefix_agree A (ws ++ B) B m (m + 1 + k) hble]

theorem scanIdentifier_prefix_agree (A B ws : List Char)
    (hws : ∀ c ∈ ws, c = ' ' ∨ c = '\t') (hne : ws ≠ [])
    (m : Nat) (t : List Token) (l : Nat) (e : List Diag) (hm : m < A.length)
    (hbnd : (scanIdentifier (A ++ B) ⟨t, m, m + 1, l, e⟩).current ≤ A.length) :
    scanIdentifier (A ++ (ws ++ B)) ⟨t, m, m + 1, l, e⟩ =
      scanIdentifier (A ++ B) ⟨t, m, m + 1, l, e⟩ := by
  have hlen1 : (A ++ B).length = A.length + B.length := List.length_append _ _
  have hlen2 : (A ++ (ws ++ B)).length = A.length + (ws.length + B.length) := by
    rw [List.length_append, List.length_append]
  obtain ⟨hs1, hs2⟩ :=
    identLoopF_spec ((A ++ B).length - (m + 1)) (A ++ B) (m + 1) (by omega)
  rw [show identLoopF ((A ++ B).length - (m + 1)) (A ++ B) (m + 1) =
    identEnd (A ++ B) (m + 1) from rfl] at hs1 hs2
  have hd1le : m + 1 ≤ identEnd (A ++ B) (m + 1) := identEnd_le _ _
  obtain ⟨k, hk⟩ : ∃ k, identEnd (A ++ B) (m + 1) = m + 1 + k :=
    ⟨identEnd (A ++ B) (m + 1) - (m + 1), by omega⟩
  rw [hk] at hs1 hs2
  have hS1 : scanIdentifier (A ++ B) ⟨t, m, m + 1, l, e⟩ =
      ⟨t ++ [⟨(keywordType (sliceSrc (A ++ B) m (m + 1 + k))).getD TokenType.IDENTIFIER,
        sliceSrc (A ++ B) m (m + 1 + k), Literal.null, l⟩], m, m + 1 + k, l, e⟩ := by
    simp only [scanIdentifier]
    rw [hk]
  rw [hS1] at hbnd
  have hble : m + 1 + k ≤ A.length := hbnd
  have hd2 : identEnd (A ++ (ws ++ B)) (m + 1) = m + 1 + k := by
    simp only [identEnd]
    apply identLoopF_eq (A ++ (ws ++ B)) k ((A ++ (ws ++ B)).length - (m + 1)) (m + 1)
    · intro i hi1 hi2
      rw [← peekAt_prefix_agree A B (ws ++ B) i (by omega)]
      exact hs1 i hi1 hi2
    · by_cases hend : m + 1 + k < A.length
      · rw [← peekAt_prefix_agree A B (ws ++ B) _ hend]
        exact hs2
      · have heq : m + 1 + k = A.length := by omega
        rw [heq]
        exact pad_head_not_alphanum A B ws hws hne
    · omega
  have hS2 : scanIdentifier (A ++ (ws ++ B)) ⟨t, m, m + 1, l, e⟩ =
      ⟨t ++ [⟨(keywordType (sliceSrc (A ++ (ws ++ B)) m (m + 1 + k))).getD
          TokenType.IDENTIFIER,
        sliceSrc (A ++ (ws ++ B)) m (m + 1 + k), Literal.null, l⟩],
       m, m + 1 + k, l, e⟩ := by
    simp only [scanIdentifier]
    rw [hd2]
  rw [hS1, hS2, sliceSrc_prefix_agree A (ws ++ B) B m (m + 1 + k) hble]

theorem step_agree (A B ws : List Char)
    (hws : ∀ c ∈ ws, c = ' ' ∨ c = '\t') (hne : ws ≠ [])
    (m : Nat) (t : List Token) (l : Nat) (e : List Diag) (hm : m < A.length)
    (hbnd : (scanToken (A ++ B) ⟨t, m, m, l, e⟩).current ≤ A.length) :
    scanToken (A ++ (ws ++ B)) ⟨t, m, m, l, e⟩ =
        scanToken (A ++ B) ⟨t, m, m, l, e⟩ ∨
      ((scanToken (A ++ B) ⟨t, m, m, l, e⟩).tokens =
          (scanToken (A ++ (ws ++ B)) ⟨t, m, m, l, e⟩).tokens ∧
       (scanToken (A ++ B) ⟨t, m, m, l, e⟩).line =
          (scanToken (A ++ (ws ++ B)) ⟨t, m, m, l, e⟩).line ∧
       (scanToken (A ++ B) ⟨t, m, m, l, e⟩).errors =
          (scanToken (A ++ (ws ++ B)) ⟨t, m, m, l, e⟩).errors ∧
       (scanToken (A ++ B) ⟨t, m, m, l, e⟩).current = A.length ∧
       (scanToken (A ++ (ws ++ B)) ⟨t, m, m, l, e⟩).current =
         A.length + ws.length) := by
  have hwlen : 0 < ws.length := List.length_pos.mpr hne
  have hlen1 : (A ++ B).length = A.length + B.length := List.length_append _ _
  have hlen2 : (A ++ (ws ++ B)).length = A.length + (ws.length + B.length) := by
    rw [List.length_append, List.length_append]
  have hpk0 : peekAt (A ++ (ws ++ B)) m = peekAt (A ++ B) m :=
    (peekAt_prefix_agree A B (ws ++ B) m hm).symm
  rcases hsc : singleCharToken (peekAt (A ++ B) m) with _ | tt
  · rcases hop : opTokens (peekAt (A ++ B) m) with _ | op
    · by_cases hslash : peekAt (A ++ B) m = '/'
      · -- comment or slash
        have h1 : scanToken (A ++ B) ⟨t, m, m, l, e⟩ =
            (if matchChar (A ++ B) (m + 1) '/' = true then
              ⟨t, m, commentEnd (A ++ B) (m + 2), l, e⟩
            else ⟨t ++ [⟨TokenType.SLASH, sliceSrc (A ++ B) m (m + 1),
              Literal.null, l⟩], m, m + 1, l, e⟩ : ScanState) :=
          scanToken_eq_slash (A ++ B) ⟨t, m, m, l, e⟩ hslash
        have h2 : scanToken (A ++ (ws ++ B)) ⟨t, m, m, l, e⟩ =
            (if matchChar (A ++ (ws ++ B)) (m + 1) '/' = true then
              ⟨t, m, commentEnd (A ++ (ws ++ B)) (m + 2), l, e⟩
            else ⟨t ++ [⟨TokenType.SLASH, sliceSrc (A ++ (ws ++ B)) m (m + 1),
              Literal.null, l⟩], m, m + 1, l, e⟩ : ScanState) :=
          scanToken_eq_slash (A ++ (ws ++ B)) ⟨t, m, m, l, e⟩ (by rw [hpk0]; exact hslash)
        rw [h1] at hbnd
        by_cases hmatch : matchChar (A ++ B) (m + 1) '/' = true
        · rw [if_pos hmatch] at hbnd
          have hq : commentEnd (A ++ B) (m + 2) ≤ A.length := hbnd
          have hmb : m + 2 ≤ (A ++ B).length := by
            have hm2 := hmatch
            simp only [matchChar, Bool.and_eq_true, decide_eq_true_eq] at hm2
            omega
          have hge : m + 2 ≤ commentEnd (A ++ B) (m + 2) := commentLoopF_le _ _ _
          have hm1 : m + 1 < A.length := by omega
          have hmm : matchChar (A ++ (ws ++ B)) (m + 1) '/' =
              matchChar (A ++ B) (m + 1) '/' :=
            (matchChar_prefix_agree A B (ws ++ B) (m + 1) hm1 '/').symm
          obtain ⟨hca, hcb, hcc, hcd⟩ :=
            commentLoopF_spec ((A ++ B).length - (m + 2)) (A ++ B) (m + 2)
              (by omega) (by omega)
          rw [show commentLoopF ((A ++ B).length - (m + 2)) (A ++ B) (m + 2) =
            commentEnd (A ++ B) (m + 2) from rfl] at hca hcb hcc hcd
          obtain ⟨k, hk⟩ : ∃ k, commentEnd (A ++ B) (m + 2) = m + 2 + k :=
            ⟨commentEnd (A ++ B) (m + 2) - (m + 2), by omega⟩
          rw [hk] at hca hcb hcc hcd hq
          by_cases hkn : m + 2 + k < A.length
          · have hce2 : commentEnd (A ++ (ws ++ B)) (m + 2) = m + 2 + k := by
              simp only [commentEnd]
              apply commentLoopF_eq (A ++ (ws ++ B)) k
                ((A ++ (ws ++ B)).length - (m + 2)) (m + 2)
              · intro i hi1 hi2
                rw [← peekAt_prefix_agree A B (ws ++ B) i (by omega)]
                exact hcc i hi1 hi2
              · omega
              · right
                rw [← peekAt_prefix_agree A B (ws ++ B) (m + 2 + k) hkn]
                rcases hcd with hs | hs
                · exact absurd hs (by omega)
                · exact hs
              · omega
            left
            rw [h1, h2, if_pos hmatch, if_pos (by rw [hmm]; exact hmatch), hk, hce2]
          · have hkeq : m + 2 + k = A.length := by omega
            have hce2 : commentEnd (A ++ (ws ++ B)) (m + 2) =
                m + 2 + (k + ws.length) := by
              simp only [commentEnd]
              apply commentLoopF_eq (A ++ (ws ++ B)) (k + ws.length)
                ((A ++ (ws ++ B)).length - (m + 2)) (m + 2)
              · intro i hi1 hi2
                by_cases hin : i < A.length
                · rw [← peekAt_prefix_agree A B (ws ++ B) i hin]
                  exact hcc i hi1 (by omega)
                · have hj := peekAt_pad_ws A B ws hws (i - A.length) (by omega)
                  rw [show i = A.length + (i - A.length) from by omega]
                  rcases hj with h | h <;> (rw [h]; decide)
              · omega
              · rcases hcd with hs | hs
                · left
                  omega
                · right
                  have hb0 : peekAt B 0 = '\n' := by
                    have h0 := peekAt_after_prefix_eq A B 0
                    rw [Nat.add_zero] at h0
                    rw [hkeq] at hs
                    rw [h0] at hs
                    exact hs
                  have h1' := peekAt_pad_after A B ws 0
                  rw [Nat.add_zero] at h1'
                  rw [show m + 2 + (k + ws.length) = A.length + ws.length from by omega,
                    h1']
                  exact hb0
              · omega
            right
            rw [h1, h2, if_pos hmatch, if_pos (by rw [hmm]; exact hmatch), hk, hce2]
            refine ⟨rfl, rfl, rfl, ?_, ?_⟩
            · show m + 2 + k = A.length
              omega
            · show m + 2 + (k + ws.length) = A.length + ws.length
              omega
        · have hmatch' : matchChar (A ++ (ws ++ B)) (m + 1) '/' = false := by
            by_cases hm1 : m + 1 < A.length
            · rw [matchChar_prefix_agree A (ws ++ B) B (m + 1) hm1 '/']
              exact Bool.eq_false_iff.mpr hmatch
            · rw [show m + 1 = A.length from by omega]
              exact pad_matchChar_false A B ws hws hne '/' (by decide) (by decide)
          left
          rw [h1, h2, if_neg (by simp [hmatch']), if_neg hmatch,
            sliceSrc_prefix_agree A (ws ++ B) B m (m + 1) (by omega)]
      · by_cases hwsc : peekAt (A ++ B) m = ' ' ∨ peekAt (A ++ B) m = '\r' ∨
            peekAt (A ++ B) m = '\t'
        · left
          rw [scanToken_eq_ws (A ++ (ws ++ B)) ⟨t, m, m, l, e⟩
              (by rw [hpk0]; exact hwsc),
            scanToken_eq_ws (A ++ B) ⟨t, m, m, l, e⟩ hwsc]
        · by_cases hnl : peekAt (A ++ B) m = '\n'
          · left
            rw [scanToken_eq_newline (A ++ (ws ++ B)) ⟨t, m, m, l, e⟩
                (by rw [hpk0]; exact hnl),
              scanToken_eq_newline (A ++ B) ⟨t, m, m, l, e⟩ hnl]
          · by_cases hq : peekAt (A ++ B) m = '"'
            · have h1 : scanToken (A ++ B) ⟨t, m, m, l, e⟩ =
                  scanString (A ++ B) ⟨t, m, m + 1, l, e⟩ :=
                scanToken_eq_quote (A ++ B) ⟨t, m, m, l, e⟩ hq
              have h2 : scanToken (A ++ (ws ++ B)) ⟨t, m, m, l, e⟩ =
                  scanString (A ++ (ws ++ B)) ⟨t, m, m + 1, l, e⟩ :=
                scanToken_eq_quote (A ++ (ws ++ B)) ⟨t, m, m, l, e⟩
                  (by rw [hpk0]; exact hq)
              rw [h1] at hbnd
              rcases scanString_prefix_agree A B ws hws m t l e hm hbnd with
                hagree | ⟨hB, ht1, ht2, hl, he, hc1, hc2⟩
              · left
                rw [h1, h2]
                exact hagree
              · right
                rw [h1, h2]
                exact ⟨by rw [ht1, ht2], hl, he, hc1, hc2⟩
            · by_cases hdg : isAsciiDigit (peekAt (A ++ B) m) = true
              · have h1 : scanToken (A ++ B) ⟨t, m, m, l, e⟩ =
                    scanNumber (A ++ B) ⟨t, m, m + 1, l, e⟩ :=
                  scanToken_eq_digit (A ++ B) ⟨t, m, m, l, e⟩ hdg
                have h2 : scanToken (A ++ (ws ++ B)) ⟨t, m, m, l, e⟩ =
                    scanNumber (A ++ (ws ++ B)) ⟨t, m, m + 1, l, e⟩ :=
                  scanToken_eq_digit (A ++ (ws ++ B)) ⟨t, m, m, l, e⟩
                    (by rw [hpk0]; exact hdg)
                rw [h1] at hbnd
                left
                rw [h1, h2]
                exact scanNumber_prefix_agree A B ws hws hne m t l e hm hbnd
              · have hdg' : isAsciiDigit (peekAt (A ++ B) m) = false :=
                  Bool.eq_false_iff.mpr hdg
                by_cases hal : isAsciiAlpha (peekAt (A ++ B) m) = true
                · have h1 : scanToken (A ++ B) ⟨t, m, m, l, e⟩ =
                      scanIdentifier (A ++ B) ⟨t, m, m + 1, l, e⟩ :=
                    scanToken_eq_alpha (A ++ B) ⟨t, m, m, l, e⟩ hal hdg'
                  have h2 : scanToken (A ++ (ws ++ B)) ⟨t, m, m, l, e⟩ =
                      scanIdentifier (A ++ (ws ++ B)) ⟨t, m, m + 1, l, e⟩ :=
                    scanToken_eq_alpha (A ++ (ws ++ B)) ⟨t, m, m, l, e⟩
                      (by rw [hpk0]; exact hal) (by rw [hpk0]; exact hdg')
                  rw [h1] at hbnd
                  left
                  rw [h1, h2]
                  exact scanIdentifier_prefix_agree A B ws hws hne m t l e hm hbnd
                · have hal' : isAsciiAlpha (peekAt (A ++ B) m) = false :=
                    Bool.eq_false_iff.mpr hal
                  left
                  rw [scanToken_eq_other (A ++ (ws ++ B)) ⟨t, m, m, l, e⟩
                      (by rw [hpk0]; exact hsc) (by rw [hpk0]; exact hop)
                      (by rw [hpk0]; exact hslash) (by rw [hpk0]; exact hwsc)
                      (by rw [hpk0]; exact hnl) (by rw [hpk0]; exact hq)
                      (by rw [hpk0]; exact hdg') (by rw [hpk0]; exact hal'),
                    scanToken_eq_other (A ++ B) ⟨t, m, m, l, e⟩ hsc hop hslash
                      hwsc hnl hq hdg' hal']
    · -- two-character-operator dispatch
      have h1 : scanToken (A ++ B) ⟨t, m, m, l, e⟩ =
          (if matchChar (A ++ B) (m + 1) '=' = true then
            ⟨t ++ [⟨op.withEqual, sliceSrc (A ++ B) m (m + 2), Literal.null, l⟩],
              m, m + 2, l, e⟩
          else ⟨t ++ [⟨op.single, sliceSrc (A ++ B) m (m + 1), Literal.null, l⟩],
            m, m + 1, l, e⟩ : ScanState) :=
        scanToken_eq_op (A ++ B) ⟨t, m, m, l, e⟩ op hsc hop
      have h2 : scanToken (A ++ (ws ++ B)) ⟨t, m, m, l, e⟩ =
          (if matchChar (A ++ (ws ++ B)) (m + 1) '=' = true then
            ⟨t ++ [⟨op.withEqual, sliceSrc (A ++ (ws ++ B)) m (m + 2),
              Literal.null, l⟩], m, m + 2, l, e⟩
          else ⟨t ++ [⟨op.single, sliceSrc (A ++ (ws ++ B)) m (m + 1),
            Literal.null, l⟩], m, m + 1, l, e⟩ : ScanState) :=
        scanToken_eq_op (A ++ (ws ++ B)) ⟨t, m, m, l, e⟩ op
          (by rw [hpk0]; exact hsc) (by rw [hpk0]; exact hop)
      rw [h1] at hbnd
      left
      by_cases hmatch : matchChar (A ++ B) (m + 1) '=' = true
      · rw [if_pos hmatch] at hbnd
        have hb2 : m + 2 ≤ A.length := hbnd
        have hmm : matchChar (A ++ (ws ++ B)) (m + 1) '=' =
            matchChar (A ++ B) (m + 1) '=' :=
          (matchChar_prefix_agree A B (ws ++ B) (m + 1) (by omega) '=').symm
        rw [h1, h2, if_pos hmatch, if_pos (by rw [hmm]; exact hmatch),
          sliceSrc_prefix_agree A (ws ++ B) B m (m + 2) hb2]
      · have hmatch' : matchChar (A ++ (ws ++ B)) (m + 1) '=' = false := by
          by_cases hm1 : m + 1 < A.length
          · rw [matchChar_prefix_agree A (ws ++ B) B (m + 1) hm1 '=']
            exact Bool.eq_false_iff.mpr hmatch
          · rw [show m + 1 = A.length from by omega]
            exact pad_matchChar_false A B ws hws hne '=' (by decide) (by decide)
        rw [h1, h2, if_neg (by simp [hmatch']), if_neg hmatch,
          sliceSrc_prefix_agree A (ws ++ B) B m (m + 1) (by omega)]
  · -- single-character token
    left
    have h1 : scanToken (A ++ B) ⟨t, m, m, l, e⟩ =
        ⟨t ++ [⟨tt, sliceSrc (A ++ B) m (m + 1), Literal.null, l⟩],
          m, m + 1, l, e⟩ :=
      scanToken_eq_single (A ++ B) ⟨t, m, m, l, e⟩ tt hsc
    have h2 : scanToken (A ++ (ws ++ B)) ⟨t, m, m, l, e⟩ =
        ⟨t ++ [⟨tt, sliceSrc (A ++ (ws ++ B)) m (m + 1), Literal.null, l⟩],
          m, m + 1, l, e⟩ :=
      scanToken_eq_single (A ++ (ws ++ B)) ⟨t, m, m, l, e⟩ tt (by rw [hpk0]; exact hsc)
    rw [h1, h2, sliceSrc_prefix_agree A (ws ++ B) B m (m + 1) (by omega)]

theorem peekAt_ws_lt (src : List Char) (j : Nat)
    (h : peekAt src j = ' ' ∨ peekAt src j = '\t') : j < src.length := by
  by_contra hge
  rw [peekAt_of_le src j (by omega)] at h
  rcases h with h | h <;> exact absurd h (by decide)

theorem scanRun_components_start (src : List Char) (t : List Token)
    (st1 st2 p l : Nat) (e : List Diag) :
    (scanRun src ⟨t, st1, p, l, e⟩).tokens = (scanRun src ⟨t, st2, p, l, e⟩).tokens ∧
    (scanRun src ⟨t, st1, p, l, e⟩).line = (scanRun src ⟨t, st2, p, l, e⟩).line ∧
    (scanRun src ⟨t, st1, p, l, e⟩).errors = (scanRun src ⟨t, st2, p, l, e⟩).errors := by
  by_cases h : p < src.length
  · rw [scanRun_step src ⟨t, st1, p, l, e⟩ h, scanRun_step src ⟨t, st2, p, l, e⟩ h]
    exact ⟨rfl, rfl, rfl⟩
  · rw [scanRun_stop src ⟨t, st1, p, l, e⟩ (by omega : src.length ≤ p),
      scanRun_stop src ⟨t, st2, p, l, e⟩ (by omega : src.length ≤ p)]
    exact ⟨rfl, rfl, rfl⟩

theorem ws_run (src : List Char) (k : Nat) :
    ∀ (p : Nat) (t : List Token) (st1 st2 l : Nat) (e : List Diag),
      (∀ j, p ≤ j → j < p + k → peekAt src j = ' ' ∨ peekAt src j = '\t') →
      (scanRun src ⟨t, st1, p, l, e⟩).tokens =
          (scanRun src ⟨t, st2, p + k, l, e⟩).tokens ∧
      (scanRun src ⟨t, st1, p, l, e⟩).line =
          (scanRun src ⟨t, st2, p + k, l, e⟩).line ∧
      (scanRun src ⟨t, st1, p, l, e⟩).errors =
          (scanRun src ⟨t, st2, p + k, l, e⟩).errors := by
  induction k with
  | zero =>
      intro p t st1 st2 l e h
      exact scanRun_components_start src t st1 st2 p l e
  | succ j ih =>
      intro p t st1 st2 l e h
      have hp := h p (le_refl _) (by omega)
      have hlt : p < src.length := peekAt_ws_lt src p hp
      have hstep : scanRun src ⟨t, st1, p, l, e⟩ =
          scanRun src (scanToken src ⟨t, p, p, l, e⟩) :=
        scanRun_step src ⟨t, st1, p, l, e⟩ hlt
      have htok : scanToken src ⟨t, p, p, l, e⟩ = ⟨t, p, p + 1, l, e⟩ :=
        scanToken_eq_ws src ⟨t, p, p, l, e⟩
          (by rcases hp with h' | h'
              · exact Or.inl h'
              · exact Or.inr (Or.inr h'))
      rw [hstep, htok]
      have hrec := ih (p + 1) t p st2 l e (fun i hi1 hi2 => h i (by omega) (by omega))
      rw [show p + 1 + j = p + (j + 1) from by omega] at hrec
      exact hrec

theorem tail_run (A B ws : List Char)
    (hws : ∀ c ∈ ws, c = ' ' ∨ c = '\t')
    (t : List Token) (st1 st2 l : Nat) (e : List Diag) :
    (scanRun (A ++ B) ⟨t, st1, A.length, l, e⟩).tokens =
        (scanRun (A ++ (ws ++ B)) ⟨t, st2, A.length, l, e⟩).tokens ∧
    (scanRun (A ++ B) ⟨t, st1, A.length, l, e⟩).line =
        (scanRun (A ++ (ws ++ B)) ⟨t, st2, A.length, l, e⟩).line ∧
    (scanRun (A ++ B) ⟨t, st1, A.length, l, e⟩).errors =
        (scanRun (A ++ (ws ++ B)) ⟨t, st2, A.length, l, e⟩).errors := by
  have hwsr := ws_run (A ++ (ws ++ B)) ws.length A.length t st2 st2 l e
    (by
      intro j hj1 hj2
      have hh := peekAt_pad_ws A B ws hws (j - A.length) (by omega)
      rw [show A.length + (j - A.length) = j from by omega] at hh
      exact hh)
  have hdrop : (A ++ B).drop A.length = (A ++ (ws ++ B)).drop (A.length + ws.length) := by
    rw [List.drop_left, drop_pad]
  have hsim := sim_offset ((A ++ B).length - A.length) (A ++ B) (A ++ (ws ++ B))
    A.length (A.length + ws.length) hdrop
    (by rw [List.length_append]; omega)
    (by rw [List.length_append, List.length_append]; omega)
    (le_refl _) t st1 st2 l e
  exact ⟨hsim.1.trans hwsr.1.symm, hsim.2.1.trans hwsr.2.1.symm,
    hsim.2.2.trans hwsr.2.2.symm⟩

theorem lockstep (fuel : Nat) :
    ∀ (A B ws : List Char), (∀ c ∈ ws, c = ' ' ∨ c = '\t') → ws ≠ [] →
      ∀ (m : Nat) (t : List Token) (st1 st2 l : Nat) (e : List Diag),
        m ≤ A.length → A.length - m ≤ fuel →
        A.length ∈ bndRun (A ++ B) ⟨t, st1, m, l, e⟩ →
        (scanRun (A ++ B) ⟨t, st1, m, l, e⟩).tokens =
            (scanRun (A ++ (ws ++ B)) ⟨t, st2, m, l, e⟩).tokens ∧
        (scanRun (A ++ B) ⟨t, st1, m, l, e⟩).line =
            (scanRun (A ++ (ws ++ B)) ⟨t, st2, m, l, e⟩).line ∧
        (scanRun (A ++ B) ⟨t, st1, m, l, e⟩).errors =
            (scanRun (A ++ (ws ++ B)) ⟨t, st2, m, l, e⟩).errors := by
  induction fuel with
  | zero =>
      intro A B ws hws hne m t st1 st2 l e hm hfuel hmem
      have hmn : m = A.length := by omega
      subst hmn
      exact tail_run A B ws hws t st1 st2 l e
  | succ f ih =>
      intro A B ws hws hne m t st1 st2 l e hm hfuel hmem
      rcases Nat.eq_or_lt_of_le hm with hmn | hmlt
      · subst hmn
        exact tail_run A B ws hws t st1 st2 l e
      · have hmlen1 : m < (A ++ B).length := by
          rw [List.length_append]; omega
        have hmlen2 : m < (A ++ (ws ++ B)).length := by
          rw [List.length_append, List.length_append]; omega
        have hmem2 : A.length ∈
            bndRun (A ++ B) (scanToken (A ++ B) ⟨t, m, m, l, e⟩) := by
          rw [bndRun_step (A ++ B) ⟨t, st1, m, l, e⟩ hmlen1] at hmem
          rcases List.mem_cons.mp hmem with heq | hmem'
          · exact absurd heq (show ¬(A.length = m) from by omega)
          · exact hmem'
        have hmem2' : A.length ∈ boundariesF
            ((A ++ B).length - (scanToken (A ++ B) ⟨t, m, m, l, e⟩).current)
            (A ++ B) (scanToken (A ++ B) ⟨t, m, m, l, e⟩) := hmem2
        have hbnd : (scanToken (A ++ B) ⟨t, m, m, l, e⟩).current ≤ A.length :=
          boundariesF_ge _ (A ++ B) _ _ hmem2'
        have hstep1 : scanRun (A ++ B) ⟨t, st1, m, l, e⟩ =
            scanRun (A ++ B) (scanToken (A ++ B) ⟨t, m, m, l, e⟩) :=
          scanRun_step (A ++ B) ⟨t, st1, m, l, e⟩ hmlen1
        have hstep2 : scanRun (A ++ (ws ++ B)) ⟨t, st2, m, l, e⟩ =
            scanRun (A ++ (ws ++ B)) (scanToken (A ++ (ws ++ B)) ⟨t, m, m, l, e⟩) :=
          scanRun_step (A ++ (ws ++ B)) ⟨t, st2, m, l, e⟩ hmlen2
        rcases step_agree A B ws hws hne m t l e hmlt hbnd with
          hagree | ⟨ht, hl, he, hc1, hc2⟩
        · rcases hS : scanToken (A ++ B) ⟨t, m, m, l, e⟩ with ⟨t1, s1, c1, l1, e1⟩
          rw [hS] at hagree hbnd hmem2
          have hcur : m < c1 := by
            have hx := scanToken_current_lt (A ++ B) ⟨t, m, m, l, e⟩
            rw [hS] at hx
            exact hx
          have hc1le : c1 ≤ A.length := hbnd
          rw [hstep1, hstep2, hagree, hS]
          exact ih A B ws hws hne c1 t1 s1 s1 l1 e1 hc1le (by omega) hmem2
        · rcases hS1 : scanToken (A ++ B) ⟨t, m, m, l, e⟩ with ⟨t1, s1, c1, l1, e1⟩
          rcases hS2 : scanToken (A ++ (ws ++ B)) ⟨t, m, m, l, e⟩ with
            ⟨t2, s2, c2, l2, e2⟩
          rw [hS1] at ht hl he hc1
          rw [hS2] at ht hl he hc2
          have htt : t1 = t2 := ht
          have hll : l1 = l2 := hl
          have hee : e1 = e2 := he
          have hcc1 : c1 = A.length := hc1
          have hcc2 : c2 = A.length + ws.length := hc2
          subst htt
          subst hll
          subst hee
          subst hcc1
          subst hcc2
          rw [hstep1, hstep2, hS1, hS2]
          have hdrop : (A ++ B).drop A.length =
              (A ++ (ws ++ B)).drop (A.length + ws.length) := by
            rw [List.drop_left, drop_pad]
          exact sim_offset ((A ++ B).length - A.length) (A ++ B) (A ++ (ws ++ B))
            A.length (A.length + ws.length) hdrop
            (by rw [List.length_append]; omega)
            (by rw [List.length_append, List.length_append]; omega)
            (le_refl _) t1 s1 s2 l1 e1

/-- C8: inserting a run of space/tab characters at a token boundary of the
input (a lexeme-start position the scan loop visits, i.e. a position lying
between two tokens of the original input) leaves the token list produced by
`scan_tokens` unchanged — same kinds, lexemes, literals, and (since spaces
and tabs contain no newline) the same line numbers. -/
theorem C8_whitespace_insertion_invariance (A B ws : List Char)
    (hws : ∀ c ∈ ws, c = ' ' ∨ c = '\t')
    (hb : A.length ∈ scanBoundaries (A ++ B)) :
    (scanTokens (A ++ (ws ++ B))).tokens = (scanTokens (A ++ B)).tokens := by
  by_cases hne : ws = []
  · subst hne
    rfl
  · have hmem : A.length ∈ bndRun (A ++ B) ⟨[], 0, 0, 1, []⟩ := hb
    have hrun := lockstep A.length A B ws hws hne 0 [] 0 0 1 []
      (Nat.zero_le _) (by omega) hmem
    have h1 : (scanTokens (A ++ B)).tokens =
        (scanRun (A ++ B) ⟨[], 0, 0, 1, []⟩).tokens ++
          [⟨TokenType.EOF, [], Literal.null,
            (scanRun (A ++ B) ⟨[], 0, 0, 1, []⟩).line⟩] := rfl
    have h2 : (scanTokens (A ++ (ws ++ B))).tokens =
        (scanRun (A ++ (ws ++ B)) ⟨[], 0, 0, 1, []⟩).tokens ++
          [⟨TokenType.EOF, [], Literal.null,
            (scanRun (A ++ (ws ++ B)) ⟨[], 0, 0, 1, []⟩).line⟩] := rfl
    rw [h1, h2, hrun.1, hrun.2.1]

/-- Witness for C8 at a concrete input: inserting one space at the boundary
after the number in `1.` (position 1 is a token boundary of `1.`) leaves the
scanned token list unchanged. -/
theorem C8_whitespace_insertion_invariance_witness :
    (∀ c ∈ [' '], c = ' ' ∨ c = '\t') ∧
    (1 : Nat) ∈ scanBoundaries (['1'] ++ ['.']) ∧
    (scanTokens (['1'] ++ ([' '] ++ ['.']))).tokens =
      (scanTokens (['1'] ++ ['.'])).tokens :=
  ⟨by decide, by decide,
    C8_whitespace_insertion_invariance ['1'] ['.'] [' '] (by decide) (by decide)⟩
